import Mathlib

/-!
Verification of the tachometer spec-expansion and plan-grouping core.

Shallow embedding of the following source files:
 * `server/src/specs.ts` — `specsFromOpts` (the Spec Expander)
 * `src/versions.ts` — `parsePackageVersions` (the Version-Flag Parser),
   `makeServerPlans` (the Plan Grouper), `prepareVersionDirectory`
   (the Install Materializer)

Filesystem paths are modelled as lists of path components; `path.join(a, b)`
is `a ++ [b]` and `path.dirname` is `List.dropLast`.  The filesystem itself
is modelled as a structure of query functions, one per filesystem primitive
the source calls.  Thrown exceptions are modelled with `Except`.
-/

/-- A filesystem path, as its list of components. -/
abbrev FsPath := List String

/-- The errors the modelled code can raise.  The source throws plain
`Error`s with messages; the spec names them `ParseError`,
`DuplicateLabelError`, `ReservedNameError`, `NotFoundError`,
`ManifestNotFoundError`.  `fsOther` models a propagated non-ENOENT
filesystem failure; `typeError` models a JavaScript `TypeError` raised by
reading a property of `undefined`. -/
inductive JsError where
  | parseError (msg : String)
  | duplicateLabel (implLabel : String)
  | reservedName (badNames : List String)
  | notFound (p : FsPath)
  | manifestNotFound (p : FsPath)
  | internalError
  | fsOther
  | typeError
  deriving Repr, DecidableEq

/-- From `src/types.ts` (not under src/; shape as used by the sources):
a version label together with its dependency overrides.  The overrides
are a JavaScript object, modelled as an insertion-ordered association
list with unique keys. -/
structure PackageVersion where
  label : String
  dependencyOverrides : List (String × String)
  deriving Repr, DecidableEq

/-- JavaScript object-property assignment `o[k] = v`: update the value in
place if the key is present, otherwise append the binding. -/
def objSet (o : List (String × String)) (k v : String) : List (String × String) :=
  match o with
  | [] => [(k, v)]
  | (k', v') :: rest =>
    if k' = k then (k', v) :: rest else (k', v') :: objSet rest k v

/-- Association-list lookup (JavaScript `Map.get` / object indexing). -/
def listLookup {κ α : Type} [DecidableEq κ] (m : List (κ × α)) (k : κ) : Option α :=
  match m with
  | [] => none
  | (k', v) :: rest => if k' = k then some v else listLookup rest k

/-- `versions.get(impl)` followed by pushing onto the array (creating it
first when absent): append `v` to the entry for `k`, preserving the map's
insertion order, or add a new entry at the end. -/
def mapPush {α : Type} (m : List (String × List α)) (k : String) (v : α) :
    List (String × List α) :=
  match m with
  | [] => [(k, [v])]
  | (k', vs) :: rest =>
    if k' = k then (k', vs ++ [v]) :: rest else (k', vs) :: mapPush rest k v

/-- Split a character list on a separator (keeping empty parts, like
JavaScript `split`). -/
def splitOnChar (sep : Char) : List Char → List (List Char)
  | [] => [[]]
  | c :: rest =>
    match splitOnChar sep rest with
    | [] => [[]]
    | cur :: parts => if c = sep then [] :: cur :: parts else (c :: cur) :: parts

/-- JavaScript `s.split(',')` (single-character separator). -/
def splitComma (s : String) : List String := (splitOnChar ',' s.data).map String.mk

/-- Whitespace for JavaScript `trim` (the common ASCII whitespace). -/
def isJsSpace (c : Char) : Bool := c = ' ' ∨ c = '\t' ∨ c = '\n' ∨ c = '\r'

/-- JavaScript `s.trim()`. -/
def jsTrim (s : String) : String :=
  String.mk (((s.data.dropWhile isJsSpace).reverse.dropWhile isJsSpace).reverse)

/-!
### The flag regex

`flag.match(/(.+?)\/(?:(default)|(?:(.+?)=(.+)))/)` is unanchored with
lazy groups.  Its behaviour, derived from the backtracking semantics:
scanning for the smallest index `j ≥ 1` with `flag[j] = '/'` such that the
rest of the string after the `/` matches the alternation; the alternation
prefers the literal `default` (as a prefix — trailing characters are NOT
rejected), and otherwise splits at the smallest `=` index `k ≥ 1` that
leaves a non-empty remainder.  The functions below implement exactly that.
-/

/-- Find the first `=` (at any index) in `t` that has a non-empty remainder
after it; return the characters before it and after it. -/
def findEqAux : List Char → Option (List Char × List Char)
  | [] => none
  | c :: rest =>
    if c = '=' ∧ rest ≠ [] then some ([], rest)
    else
      match findEqAux rest with
      | some (l, r) => some (c :: l, r)
      | none => none

/-- The lazy `(.+?)=(.+)` split: first `=` at index `≥ 1` with a non-empty
remainder. -/
def findEq : List Char → Option (List Char × List Char)
  | [] => none
  | c :: rest =>
    match findEqAux rest with
    | some (l, r) => some (c :: l, r)
    | none => none

/-- The alternation `(?:(default)|(?:(.+?)=(.+)))` applied to the text
after the chosen `/`:  `some none` means the `default` branch matched,
`some (some (label, packageVersions))` the override branch. -/
def tailMatch (t : List Char) : Option (Option (List Char × List Char)) :=
  if t.take 7 = "default".toList then some none
  else
    match findEq t with
    | some (l, r) => some (some (l, r))
    | none => none

/-- The search for the `/` of the flag regex, over the characters after
the (non-empty) first character of the implementation group. -/
def flagMatchAux : List Char → Option (List Char × Option (List Char × List Char))
  | [] => none
  | c :: rest =>
    if c = '/' then
      match tailMatch rest with
      | some res => some ([], res)
      | none =>
        match flagMatchAux rest with
        | some (pre, res) => some (c :: pre, res)
        | none => none
    else
      match flagMatchAux rest with
      | some (pre, res) => some (c :: pre, res)
      | none => none

/-- `flag.match(/(.+?)\/(?:(default)|(?:(.+?)=(.+)))/)`:
`none` models a `null` match; otherwise the implementation group together
with the matched alternation. -/
def flagMatch : List Char → Option (List Char × Option (List Char × List Char))
  | [] => none
  | c :: rest =>
    match flagMatchAux rest with
    | some (pre, res) => some (c :: pre, res)
    | none => none

/-- The greedy `pv.match(/(.+)@(.+)/)`: split at the last `@` that leaves
both sides non-empty (searched over the characters after the first). -/
def pvMatchAux : List Char → Option (List Char × List Char)
  | [] => none
  | c :: rest =>
    match pvMatchAux rest with
    | some (l, r) => some (c :: l, r)
    | none => if c = '@' ∧ rest ≠ [] then some ([], rest) else none

/-- `pv.match(/(.+)@(.+)/)` with the outer `(.+)` non-empty. -/
def pvMatch : List Char → Option (List Char × List Char)
  | [] => none
  | c :: rest =>
    match pvMatchAux rest with
    | some (l, r) => some (c :: l, r)
    | none => none

/-- The inner loop of `parsePackageVersions`: parse each `<pkg>@<version>`
entry, accumulating `dependencyOverrides[pkg] = version`. -/
def parseEntriesAux (acc : List (String × String)) :
    List String → Except JsError (List (String × String))
  | [] => .ok acc
  | pv :: rest =>
    match pvMatch pv.data with
    | none => .error (.parseError pv)
    | some (pkg, version) =>
      parseEntriesAux (objSet acc (String.mk pkg) (String.mk version)) rest

/-- The loop of `parsePackageVersions` over the flags, carrying the
`versions` map and the `uniqueImplLabels` set (as a list of the
`implementation ++ "/" ++ label` strings). -/
def ppvLoop (versions : List (String × List PackageVersion)) (seen : List String) :
    List String → Except JsError (List (String × List PackageVersion))
  | [] => .ok versions
  | flag :: rest =>
    match flagMatch flag.data with
    | none => .error (.parseError flag)
    | some (implC, none) =>
      ppvLoop (mapPush versions (String.mk implC) ⟨"default", []⟩) seen rest
    | some (implC, some (labelC, pvsC)) =>
      -- the source's `implLabel` constant is the interpolated string
      -- `implementation ++ "/" ++ label`, written out at each use
      if seen.contains (String.mk implC ++ "/" ++ String.mk labelC) then
        .error (.duplicateLabel (String.mk implC ++ "/" ++ String.mk labelC))
      else
        match parseEntriesAux [] (splitComma (String.mk pvsC)) with
        | .error e => .error e
        | .ok dependencyOverrides =>
          ppvLoop (mapPush versions (String.mk implC) ⟨String.mk labelC, dependencyOverrides⟩)
            ((String.mk implC ++ "/" ++ String.mk labelC) :: seen) rest

/-- `parsePackageVersions` from `src/versions.ts`: parse the
`--package-version` flags into a map from implementation name to its
list of `PackageVersion`s, in flag order. -/
def parsePackageVersions (flags : List String) :
    Except JsError (List (String × List PackageVersion)) :=
  ppvLoop [] [] flags

/-!
### The sort comparator

`specsFromOpts` sorts with `a.name.localeCompare(b.name)` etc.
`String.prototype.localeCompare` performs locale-aware collation (the
Unicode/CLDR root collation under Node's ICU), NOT ordinal code-unit
comparison.  We model it for the ASCII fragment: the whole primary weight
sequences of the two strings are compared first (digits before letters,
letters case-insensitively in alphabetical order), and ties are broken by
the tertiary weight sequences (lowercase before uppercase).  Characters
outside the modelled fragment are given distinct weights above all others
so that the model's collation key remains injective.
-/

/-- Primary collation weight of a character (case- and accent-insensitive
level; here: digits `100+`, letters `1000+` folding case, all other
characters pushed above by code point). -/
def primaryWeight (c : Char) : Nat :=
  let n := c.toNat
  if 97 ≤ n ∧ n ≤ 122 then 1000 + (n - 97)
  else if 65 ≤ n ∧ n ≤ 90 then 1000 + (n - 65)
  else if 48 ≤ n ∧ n ≤ 57 then 100 + (n - 48)
  else 100000 + n

/-- Tertiary collation weight (case level): lowercase sorts before
uppercase. -/
def tertiaryWeight (c : Char) : Nat :=
  let n := c.toNat
  if 65 ≤ n ∧ n ≤ 90 then 1 else 0

/-- Lexicographic comparison of weight sequences. -/
def cmpNatList : List Nat → List Nat → Ordering
  | [], [] => .eq
  | [], _ :: _ => .lt
  | _ :: _, [] => .gt
  | a :: as, b :: bs =>
    match compare a b with
    | .eq => cmpNatList as bs
    | o => o

/-- Model of `s.localeCompare(t)` (sign only): compare the primary weight
sequences, then the tertiary weight sequences. -/
def localeCompare (s t : String) : Ordering :=
  (cmpNatList (s.data.map primaryWeight) (t.data.map primaryWeight)).then
    (cmpNatList (s.data.map tertiaryWeight) (t.data.map tertiaryWeight))

/-- A `PackageVersion`'s `dependencyOverrides`-style dependency map. -/
abbrev DepMap := List (String × String)

/-- The benchmark runner's opaque per-variant config payload. -/
abbrev VariantConfigData := List (String × String)

/-- A benchmark URL as read by `makeServerPlans` (`spec.url.kind`,
`spec.url.implementation`, `spec.url.version`). -/
inductive BenchUrl where
  | remote
  | local (implementation : String) (version : PackageVersion)
  deriving Repr, DecidableEq

/-- `BenchmarkSpec`.  The expander (`server/src/specs.ts`) constructs
objects with `name`, `implementation`, `variant`, `version` and `config`
properties and no `url` property; the grouper (`src/versions.ts`) reads a
`url` property.  JavaScript objects are dynamic, so the embedding carries
`url` as an `Option` which the expander leaves at `none` (the property is
absent). -/
structure BenchmarkSpec where
  name : String
  implementation : String
  variant : String
  version : PackageVersion
  config : VariantConfigData
  url : Option BenchUrl := none
  deriving Repr, DecidableEq

/-- The comparator of `specs.sort((a, b) => ...)` in `specsFromOpts`
(sign of the returned number as an `Ordering`). -/
def specSortCompare (a b : BenchmarkSpec) : Ordering :=
  if a.name ≠ b.name then localeCompare a.name b.name
  else if a.variant ≠ b.variant then localeCompare a.variant b.variant
  else if a.implementation ≠ b.implementation then
    localeCompare a.implementation b.implementation
  else if a.version.label ≠ b.version.label then
    localeCompare a.version.label b.version.label
  else .eq

/-- "`a` need not come after `b`" for the sort comparator: the relation a
comparison sort establishes between adjacent elements of its output. -/
def specLe (a b : BenchmarkSpec) : Prop := specSortCompare a b ≠ .gt

instance : DecidableRel specLe := fun a b => by
  unfold specLe; infer_instance

/-!
### The Spec Expander (`specsFromOpts`, `server/src/specs.ts`)
-/

/-- One entry of `ConfigFormat.variants` (`benchmarks.json`): both `name`
and `config` are optional in the JSON. -/
structure ConfigVariant where
  name : Option String
  config : Option VariantConfigData
  deriving Repr, DecidableEq

/-- The optional `benchmarks.json` contents. -/
structure ConfigFormat where
  variants : Option (List ConfigVariant)
  deriving Repr, DecidableEq

/-- An `fs` read failure code: `ENOENT` is treated as "absent" by the
source where tolerated; anything else propagates. -/
inductive FsErr where
  | enoent
  | other
  deriving Repr, DecidableEq

/-- The filesystem queries `specsFromOpts` performs. -/
structure SpecsFs where
  /-- `fsExtra.readdir(dir)`: directory listing, or a thrown error. -/
  readdir : FsPath → Except FsErr (List String)
  /-- `fsExtra.pathExists(p)`. -/
  pathExists : FsPath → Bool
  /-- `fsExtra.readJson(benchDir + "/benchmarks.json")`. -/
  readConfig : FsPath → Except FsErr ConfigFormat

/-- The options object consumed by `specsFromOpts`. -/
structure Opts where
  name : String
  implementation : String
  variant : String
  packageVersion : List String
  deriving Repr

/-- The reserved-name set `ignoreFiles`. -/
def ignoreFiles : List String :=
  ["node_modules", "package.json", "package-lock.json", "common", "versions"]

/-- The implicit version list `[{label: 'default', dependencyOverrides: {}}]`. -/
def defaultVersion : PackageVersion := ⟨"default", []⟩

/-- The spec-pushing part of the benchmark loop body, after `config` has
been resolved (`none` models `undefined` after a tolerated `ENOENT`). -/
def oneBenchEmit (opts : Opts) (variants : List String)
    (implVersions : List PackageVersion) (implementation name : String)
    (config : Option ConfigFormat) : Except JsError (List BenchmarkSpec) :=
  match config with
  | some c =>
    match c.variants with
    | some vs =>
      if vs.length ≠ 0 then
        .ok (vs.flatMap fun variant =>
          match variant.name with
          | some vn =>
            if vn ≠ "" ∧ (variants.contains "*" ∨ variants.contains vn) then
              implVersions.map fun version =>
                { name, implementation, version, variant := vn,
                  config := variant.config.getD [] }
            else []
          | none => [])
      else if opts.variant = "*" then
        .ok (implVersions.map fun version =>
          { name, implementation, version, variant := "", config := [] })
      else .ok []
    | none =>
      if opts.variant = "*" then
        .ok (implVersions.map fun version =>
          { name, implementation, version, variant := "", config := [] })
      else .ok []
  | none =>
    if opts.variant = "*" then
      .ok (implVersions.map fun version =>
        { name, implementation, version, variant := "", config := [] })
    else .ok []

/-- The body of the benchmark loop for one benchmark name: skip silently
when the directory is absent, read the optional config, and emit the specs
for this benchmark (declared-variants branch, wildcard branch, or
nothing). -/
def oneBench (fs : SpecsFs) (repoRoot : FsPath) (opts : Opts)
    (variants : List String) (implVersions : List PackageVersion)
    (implementation : String) (name : String) :
    Except JsError (List BenchmarkSpec) :=
  -- the source's `benchDir` constant is `repoRoot ++ ["benchmarks",
  -- implementation, name]`, written out at each use
  if ¬ fs.pathExists (repoRoot ++ ["benchmarks", implementation, name]) then .ok []
  else
    match fs.readConfig (repoRoot ++ ["benchmarks", implementation, name, "benchmarks.json"]) with
    | .error .other => .error .fsOther
    | .error .enoent => oneBenchEmit opts variants implVersions implementation name none
    | .ok c => oneBenchEmit opts variants implVersions implementation name (some c)

/-- The benchmark loop (`for (const name of benchmarks)`). -/
def benchLoop (fs : SpecsFs) (repoRoot : FsPath) (opts : Opts)
    (variants : List String) (implVersions : List PackageVersion)
    (implementation : String) :
    List String → Except JsError (List BenchmarkSpec)
  | [] => .ok []
  | name :: rest => do
    let here ← oneBench fs repoRoot opts variants implVersions implementation name
    let more ← benchLoop fs repoRoot opts variants implVersions implementation rest
    .ok (here ++ more)

/-- Resolve the benchmark-name list for one implementation: wildcard reads
the implementation directory (minus reserved names); an explicit list is
comma-split and validated against the reserved names. -/
def resolveBenchNames (fs : SpecsFs) (implDir : FsPath) (opts : Opts) :
    Except JsError (List String) :=
  -- the source's `badNames` constant is the reserved-name filter of the
  -- comma-split list, written out at each use
  if opts.name = "*" then
    match fs.readdir implDir with
    | .error _ => .error .fsOther
    | .ok benchmarks => .ok (benchmarks.filter fun d => ¬ ignoreFiles.contains d)
  else
    if ((splitComma opts.name).filter fun d => ignoreFiles.contains d).length > 0 then
      .error (.reservedName ((splitComma opts.name).filter fun d => ignoreFiles.contains d))
    else .ok (splitComma opts.name)

/-- The implementation loop (`for (const implementation of impls)`). -/
def implLoop (fs : SpecsFs) (repoRoot : FsPath) (opts : Opts)
    (variants : List String)
    (versions : List (String × List PackageVersion)) :
    List String → Except JsError (List BenchmarkSpec)
  | [] => .ok []
  | implementation :: rest => do
    -- the source's `implDir` constant is `repoRoot ++ ["benchmarks",
    -- implementation]` and its `implVersions` constant is
    -- `versions.get(implementation) || [{label: 'default', ...}]`
    let benchmarks ← resolveBenchNames fs (repoRoot ++ ["benchmarks", implementation]) opts
    let here ← benchLoop fs repoRoot opts variants
      ((listLookup versions implementation).getD [defaultVersion]) implementation benchmarks
    let more ← implLoop fs repoRoot opts variants versions rest
    .ok (here ++ more)

/-- Resolve the implementation list: wildcard reads the benchmark root's
subdirectories (minus reserved names); an explicit list is comma-split
and validated against the reserved names. -/
def resolveImpls (fs : SpecsFs) (repoRoot : FsPath) (opts : Opts) :
    Except JsError (List String) :=
  if opts.implementation = "*" then
    match fs.readdir (repoRoot ++ ["benchmarks"]) with
    | .error _ => .error JsError.fsOther
    | .ok impls => .ok (impls.filter fun d => ¬ ignoreFiles.contains d)
  else
    if ((splitComma opts.implementation).filter fun d => ignoreFiles.contains d).length > 0 then
      .error (JsError.reservedName
        ((splitComma opts.implementation).filter fun d => ignoreFiles.contains d))
    else .ok (splitComma opts.implementation)

/-- The requested-variant set (trimmed, empty strings dropped). -/
def requestedVariants (opts : Opts) : List String :=
  ((splitComma opts.variant).map jsTrim).filter fun v => v ≠ ""

/-- `specsFromOpts` from `server/src/specs.ts`: expand the selection
options against the on-disk benchmark layout into the sorted list of
`BenchmarkSpec`s. -/
def specsFromOpts (fs : SpecsFs) (repoRoot : FsPath) (opts : Opts) :
    Except JsError (List BenchmarkSpec) := do
  let versions ← parsePackageVersions opts.packageVersion
  let impls ← resolveImpls fs repoRoot opts
  let specs ← implLoop fs repoRoot opts (requestedVariants opts) versions impls
  .ok (specs.insertionSort specLe)

/-!
### The Plan Grouper (`makeServerPlans`, `src/versions.ts`)
-/

/-- A URL-path to disk-path mapping (from `src/server.ts`, not under src/;
shape as used by `makeServerPlans`). -/
structure MountPoint where
  urlPath : String
  diskPath : FsPath
  deriving Repr, DecidableEq

/-- The synthesized npm manifest `{private: true, dependencies}`
(`NpmPackageJson`; the `private` field is named `priv` because `private`
is a Lean keyword). -/
structure NpmPackageJson where
  priv : Bool
  dependencies : DepMap
  deriving Repr, DecidableEq

/-- `NpmInstall` from `src/versions.ts`. -/
structure NpmInstall where
  installDir : FsPath
  packageJson : NpmPackageJson
  deriving Repr, DecidableEq

/-- `ServerPlan` from `src/versions.ts`. -/
structure ServerPlan where
  specs : List BenchmarkSpec
  npmInstalls : List NpmInstall
  mountPoints : List MountPoint
  deriving Repr, DecidableEq

/-- `fileKind`'s result ('file' | 'dir'). -/
inductive FileKind where
  | file
  | dir
  deriving Repr, DecidableEq

/-- An on-disk package manifest as consumed by the grouper: readJson
followed by `.dependencies` (absent means the spread contributes
nothing, i.e. the empty map). -/
structure PackageJsonFile where
  dependencies : DepMap
  deriving Repr, DecidableEq

/-- The filesystem queries `makeServerPlans` performs. -/
structure PlanFs where
  /-- `fileKind(p)`: `none` models ENOENT. -/
  fileKind : FsPath → Option FileKind
  /-- `fsExtra.pathExists(p)` (used by `findPackageJsonPath`). -/
  pathExists : FsPath → Bool
  /-- `fsExtra.readJson(p)` for a `package.json` path. -/
  readPackageJson : FsPath → PackageJsonFile

/-- The ascent loop of `findPackageJsonPath`, structured over the
reversed component list of the current directory (each step checks
`cur/package.json` and then moves to the parent directory by dropping
the last component, stopping at the filesystem root). -/
def findPackageJsonPathAux (fs : PlanFs) : List String → Option FsPath
  | [] =>
    if fs.pathExists ["package.json"] then some ["package.json"] else none
  | c :: rest =>
    if fs.pathExists ((c :: rest).reverse ++ ["package.json"]) then
      some ((c :: rest).reverse ++ ["package.json"])
    else findPackageJsonPathAux fs rest

/-- `findPackageJsonPath(startDir)`: walk upward until a `package.json`
exists; `none` when the filesystem root is reached without finding one. -/
def findPackageJsonPath (fs : PlanFs) (startDir : FsPath) : Option FsPath :=
  findPackageJsonPathAux fs startDir.reverse

/-- One character of `JSON.stringify`'s string escaping. -/
def jsonEscChar (c : Char) : List Char :=
  if c = '"' then ['\\', '"']
  else if c = '\\' then ['\\', '\\'] else [c]

/-- `JSON.stringify` of one string (quote and escape). -/
def jsonQuote (s : String) : List Char :=
  '"' :: s.data.flatMap jsonEscChar ++ ['"']

/-- Modelled from the spec: `hashStrings` is
`crypto.createHash('sha256').update(JSON.stringify(strings)).digest('hex')`
— the sha256 primitive lives in the external `crypto` library, and the
spec requires only that "Hashing must be deterministic and
collision-resistant across runs".  It is modelled as the (injective,
deterministic) JSON encoding of the string list itself. -/
def hashStrings (strings : List String) : String :=
  String.mk (strings.flatMap jsonQuote)

/-- `path.relative(from, to)` for the component-list path model: drop the
common prefix, then one `..` per remaining `from` component. -/
def pathRelative : FsPath → FsPath → List String
  | f :: fs, t :: ts =>
    if f = t then pathRelative fs ts
    else (f :: fs).map (fun _ => "..") ++ t :: ts
  | [], ts => ts
  | fs, [] => fs.map fun _ => ".."

/-- The structural install key `JSON.stringify([packageDir,
implementation, label])` — modelled as the tuple itself (JSON
stringification of a string tuple is injective, so the tuple is the
faithful key identity). -/
abbrev InstallKey := FsPath × String × String

/-- The grouping state of `makeServerPlans`'s first loop. -/
structure GroupState where
  keySpecs : List (InstallKey × List BenchmarkSpec)
  keyDeps : List (InstallKey × DepMap)
  defaultSpecs : List BenchmarkSpec
  deriving Repr

/-- `keySpecs.get(key)` then push (creating the array if absent). -/
def keyPush (m : List (InstallKey × List BenchmarkSpec)) (k : InstallKey)
    (v : BenchmarkSpec) : List (InstallKey × List BenchmarkSpec) :=
  match m with
  | [] => [(k, [v])]
  | (k', vs) :: rest =>
    if k' = k then (k', vs ++ [v]) :: rest else (k', vs) :: keyPush rest k v

/-- `keyDeps.set(key, deps)`: replace in place or append. -/
def keySet (m : List (InstallKey × DepMap)) (k : InstallKey) (v : DepMap) :
    List (InstallKey × DepMap) :=
  match m with
  | [] => [(k, v)]
  | (k', v') :: rest =>
    if k' = k then (k', v) :: rest else (k', v') :: keySet rest k v

/-- The object spread `{...a, ...b}` on dependency maps: `b`'s bindings
override `a`'s in place, new keys append in `b`'s order. -/
def spreadMerge (a b : DepMap) : DepMap :=
  b.foldl (fun acc kv => objSet acc kv.1 kv.2) a

/-- The body of `makeServerPlans`'s first loop, for one spec.  (The
source's `diskPath` constant is `benchmarkRoot ++ [implementation,
spec.name]` and its `key` constant is `(originalPackageJsonPath.dropLast,
implementation, version.label)`; both are written out at each use.) -/
def groupStep (fs : PlanFs) (benchmarkRoot : FsPath) (st : GroupState)
    (spec : BenchmarkSpec) : Except JsError GroupState :=
  match spec.url with
  | none => .error .typeError
  | some .remote => .ok st
  | some (.local implementation version) =>
    if version.label = "default" then
      .ok { st with defaultSpecs := st.defaultSpecs ++ [spec] }
    else
      match fs.fileKind (benchmarkRoot ++ [implementation, spec.name]) with
      | none => .error (.notFound (benchmarkRoot ++ [implementation, spec.name]))
      | some kind =>
        match findPackageJsonPath fs
            (if kind = .file then (benchmarkRoot ++ [implementation, spec.name]).dropLast
             else benchmarkRoot ++ [implementation, spec.name]) with
        | none => .error (.manifestNotFound (benchmarkRoot ++ [implementation, spec.name]))
        | some originalPackageJsonPath =>
          .ok { st with
            keySpecs := keyPush st.keySpecs
              (originalPackageJsonPath.dropLast, implementation, version.label) spec,
            keyDeps := keySet st.keyDeps
              (originalPackageJsonPath.dropLast, implementation, version.label)
              (spreadMerge (fs.readPackageJson originalPackageJsonPath).dependencies
                version.dependencyOverrides) }

/-- The first loop of `makeServerPlans`. -/
def groupLoop (fs : PlanFs) (benchmarkRoot : FsPath) (st : GroupState) :
    List BenchmarkSpec → Except JsError GroupState
  | [] => .ok st
  | spec :: rest => do
    let st' ← groupStep fs benchmarkRoot st spec
    groupLoop fs benchmarkRoot st' rest

/-- The plan-emission loop over the install-key buckets (first-seen
order). -/
def emitPlans (benchmarkRoot npmInstallRoot : FsPath)
    (keyDeps : List (InstallKey × DepMap)) :
    List (InstallKey × List BenchmarkSpec) → Except JsError (List ServerPlan)
  | [] => .ok []
  | (key, specs) :: rest => do
    let (packageDir, _, label) := key
    match listLookup keyDeps key with
    | none => .error .internalError
    | some dependencies =>
      let installDir := npmInstallRoot ++ [hashStrings [String.intercalate "/" packageDir, label]]
      let plan : ServerPlan :=
        { specs,
          npmInstalls := [{ installDir, packageJson := { priv := true, dependencies } }],
          mountPoints :=
            [{ urlPath :=
                 "/" ++ String.intercalate "/" (pathRelative benchmarkRoot packageDir)
                   ++ "/node_modules",
               diskPath := installDir ++ ["node_modules"] },
             { urlPath := "/", diskPath := benchmarkRoot }] }
      let more ← emitPlans benchmarkRoot npmInstallRoot keyDeps rest
      .ok (plan :: more)

/-- `makeServerPlans` from `src/versions.ts`. -/
def makeServerPlans (fs : PlanFs) (benchmarkRoot npmInstallRoot : FsPath)
    (specs : List BenchmarkSpec) : Except JsError (List ServerPlan) := do
  let st ← groupLoop fs benchmarkRoot ⟨[], [], []⟩ specs
  let defaultPlans : List ServerPlan :=
    if st.defaultSpecs.length > 0 then
      [{ specs := st.defaultSpecs, npmInstalls := [],
         mountPoints := [{ urlPath := "/", diskPath := benchmarkRoot }] }]
    else []
  let keyedPlans ← emitPlans benchmarkRoot npmInstallRoot st.keyDeps st.keySpecs
  .ok (defaultPlans ++ keyedPlans)

/-!
### The Install Materializer (`prepareVersionDirectory`, `src/versions.ts`)

The filesystem side effects are modelled as an explicit world state:
which paths exist, which JSON files have been written, and the working
directories `npm install` has been invoked in (`npmInstall` itself is an
external subprocess primitive).
-/

/-- The mutable world `prepareVersionDirectory` acts on. -/
structure World where
  /-- `fsExtra.pathExists` / the directories `ensureDir` creates. -/
  pathExists : FsPath → Bool
  /-- The JSON files written by `writeJson`, newest first. -/
  writtenJson : List (FsPath × NpmPackageJson)
  /-- The working directories `npm install` was invoked in, newest
  first. -/
  npmInstallCalls : List FsPath

/-- `prepareVersionDirectory` from `src/versions.ts`: return immediately
when `installDir` exists; otherwise create it, write the synthesized
`package.json`, and run `npm install` in it. -/
def prepareVersionDirectory (inst : NpmInstall) (w : World) : World :=
  if w.pathExists inst.installDir then w
  else
    { pathExists := fun p => p = inst.installDir || w.pathExists p,
      writtenJson := (inst.installDir ++ ["package.json"], inst.packageJson) :: w.writtenJson,
      npmInstallCalls := inst.installDir :: w.npmInstallCalls }

/-!
### Definitions following the spec's words (for refutations)

These two definitions are spelled from `spec.md`, not from the source:
the ordinal sort key of §4.2 step 4 and the flag grammar of §4.1, to be
compared against what the source actually does.
-/

/-- Ordinal (code-unit) comparison of strings, as the spec's words "using
ordinal string comparison" prescribe. -/
def ordinalCompare (s t : String) : Ordering :=
  cmpNatList (s.data.map Char.toNat) (t.data.map Char.toNat)

/-- Spec §4.2 step 4: non-decreasing under the lexicographic key
`(name, variant, implementation, version.label)` with ordinal string
comparison. -/
def specOrdinalLe (a b : BenchmarkSpec) : Bool :=
  (((ordinalCompare a.name b.name).then
    ((ordinalCompare a.variant b.variant).then
      ((ordinalCompare a.implementation b.implementation).then
        (ordinalCompare a.version.label b.version.label)))) ≠ .gt : Bool)

/-- Spec §4.1: the full-flag grammar `<implementation>/default` or
`<implementation>/<label>=<pkg>@<version>[,<pkg>@<version>]*` — a flag
"matches" a form when the whole flag is of that shape (any split point is
allowed, the generous reading of the grammar's ambiguity).  An entry
`<pkg>@<version>` means some split of the entry at an `@` into two
non-empty parts, which is exactly `pvMatch ≠ none`. -/
def specGrammarOk (flag : String) : Bool :=
  let cs := flag.data
  -- <implementation>/default : the flag ends in "/default" with a
  -- non-empty implementation before it.
  (cs.length ≥ 9 ∧ cs.drop (cs.length - 8) = "/default".toList) ||
  -- <implementation>/<label>=<entries> : some split with non-empty
  -- implementation and label, where every comma-separated entry after
  -- the "=" splits at some "@" into two non-empty parts.
  (List.range cs.length).any fun i =>
    1 ≤ i ∧ cs.get? i = some '/' ∧
    (List.range cs.length).any fun j =>
      i + 2 ≤ j ∧ j + 1 ≤ cs.length ∧ cs.get? j = some '=' ∧
      (splitComma (String.mk (cs.drop (j + 1)))).all fun pv => pvMatch pv.data ≠ none

/-!
### Concrete fixtures

Small filesystems and option records the counterexamples and witnesses
evaluate the embedded functions on.
-/

/-- Expander fixture: two benchmarks named `a` and `B` under
implementation `i`, no config files. -/
def fsLetters : SpecsFs where
  readdir := fun _ => .ok []
  pathExists := fun p =>
    p = ["benchmarks", "i", "a"] ∨ p = ["benchmarks", "i", "B"]
  readConfig := fun _ => .error .enoent

/-- Options requesting benchmarks `B` and `a` of implementation `i`. -/
def optsLetters : Opts := ⟨"B,a", "i", "*", []⟩

/-- The spec for benchmark `a` that `specsFromOpts fsLetters` emits. -/
def specLowerA : BenchmarkSpec :=
  { name := "a", implementation := "i", variant := "", version := defaultVersion,
    config := [], url := none }

/-- The spec for benchmark `B` that `specsFromOpts fsLetters` emits. -/
def specUpperB : BenchmarkSpec :=
  { name := "B", implementation := "i", variant := "", version := defaultVersion,
    config := [], url := none }

/-- Expander fixture with a single benchmark `a` under implementation
`i`. -/
def fsSingle : SpecsFs where
  readdir := fun _ => .ok []
  pathExists := fun p => p = ["benchmarks", "i", "a"]
  readConfig := fun _ => .error .enoent

/-- Options requesting only benchmark `a` of implementation `i`. -/
def optsSingle : Opts := ⟨"a", "i", "*", []⟩

/-- Grouper fixture: benchmark directories `i/n1` and `i/n2` whose nearest
manifest is `i/package.json`. -/
def planFsShared : PlanFs where
  fileKind := fun p => if p = ["i", "n1"] ∨ p = ["i", "n2"] then some .dir else none
  pathExists := fun p => p = ["i", "package.json"]
  readPackageJson := fun _ => ⟨[("dep", "1.0.0")]⟩

/-- A grouper-shaped spec (carrying a `url`) for benchmark `n1`. -/
def gSpecN1 (label : String) : BenchmarkSpec :=
  { name := "n1", implementation := "i", variant := "", version := defaultVersion,
    config := [], url := some (.local "i" ⟨label, []⟩) }

/-- A grouper-shaped spec (carrying a `url`) for benchmark `n2`. -/
def gSpecN2 (label : String) : BenchmarkSpec :=
  { name := "n2", implementation := "i", variant := "", version := defaultVersion,
    config := [], url := some (.local "i" ⟨label, []⟩) }

/-- The code's effective per-flag acceptance: the flag regex matches and,
in the override form, every comma-separated version entry matches the
entry regex. -/
def effFlagOk (flag : String) : Bool :=
  match flagMatch flag.data with
  | none => false
  | some (_, none) => true
  | some (_, some (_, pvs)) =>
    (splitComma (String.mk pvs)).all fun pv => pvMatch pv.data ≠ none

/-- The non-default `(implementation, label)` pairs the flag regex
extracts from a flag list (flags whose regex match is the `default`
branch, or fails, contribute nothing). -/
def labeledPairs (flags : List String) : List (String × String) :=
  flags.filterMap fun f =>
    match flagMatch f.data with
    | some (i, some (l, _)) => some (String.mk i, String.mk l)
    | _ => none

/-- Is this result a thrown `ParseError`? -/
def isParseError {α : Type} : Except JsError α → Bool
  | .error (.parseError _) => true
  | _ => false

/-- Is this result a thrown `DuplicateLabelError`? -/
def isDupLabelError {α : Type} : Except JsError α → Bool
  | .error (.duplicateLabel _) => true
  | _ => false

/-- Is this result the grouper's "no deps for key" internal error? -/
def isInternalError {α : Type} : Except JsError α → Bool
  | .error .internalError => true
  | _ => false

deriving instance DecidableEq for Except

/-- An initial world with nothing on disk and no effects recorded. -/
def emptyWorld : World := ⟨fun _ => false, [], []⟩

/-- A sample install for the materializer theorems. -/
def instSample : NpmInstall := ⟨["root", "h"], ⟨true, [("dep", "1.0.0")]⟩⟩

/-- A world where every path already exists. -/
def fullWorld : World := ⟨fun _ => true, [], []⟩


/-- The grouping invariant of `makeServerPlans`: every key in `keySpecs`
has a `keyDeps` entry. -/
def depsCover (st : GroupState) : Prop :=
  ∀ k ∈ st.keySpecs.map Prod.fst, listLookup st.keyDeps k ≠ none

/-- The `uniqueImplLabels` entry for a pair: `implementation ++ "/" ++
label`. -/
def pairJoin (p : String × String) : String := p.1 ++ "/" ++ p.2

/-- The shape of every implementation name the flag regex extracts in the
`=`-form: non-empty, and `/` occurs at most as its first character. -/
def goodImpl (i : String) : Prop := i.data ≠ [] ∧ '/' ∉ i.data.drop 1

/-!
## Lemmas and theorems

### Ordering and collation facts
-/

theorem Ordering.then_eq_left {o z : Ordering} (h : o ≠ .eq) : o.then z = o := by
  cases o <;> simp_all [Ordering.then]

theorem Ordering.then_swap (o z : Ordering) : (o.then z).swap = o.swap.then z.swap := by
  cases o <;> cases z <;> rfl

theorem cmpNatList_cons (x y : Nat) (xs ys : List Nat) :
    cmpNatList (x :: xs) (y :: ys) = (compare x y).then (cmpNatList xs ys) := by
  simp only [cmpNatList]
  rcases h : compare x y with _ | _ | _ <;> rfl

theorem Ordering.then_ne_gt {o z : Ordering} :
    o.then z ≠ .gt ↔ o = .lt ∨ (o = .eq ∧ z ≠ .gt) := by
  cases o <;> cases z <;> simp [Ordering.then]

theorem cmpNatList_swap (a b : List Nat) : cmpNatList a b = (cmpNatList b a).swap := by
  induction a generalizing b with
  | nil => cases b <;> rfl
  | cons x xs ih =>
    cases b with
    | nil => rfl
    | cons y ys =>
      rw [cmpNatList_cons, cmpNatList_cons, Ordering.then_swap, ← Nat.compare_swap, ← ih ys]

theorem cmpNatList_eq_iff (a b : List Nat) : cmpNatList a b = .eq ↔ a = b := by
  induction a generalizing b with
  | nil => cases b <;> simp [cmpNatList]
  | cons x xs ih =>
    cases b with
    | nil => simp [cmpNatList]
    | cons y ys =>
      rw [cmpNatList_cons, Ordering.then_eq_eq, Nat.compare_eq_eq, ih ys,
        List.cons.injEq]

theorem cmpNatList_lt_trans {a b c : List Nat} (h₁ : cmpNatList a b = .lt)
    (h₂ : cmpNatList b c = .lt) : cmpNatList a c = .lt := by
  induction a generalizing b c with
  | nil =>
    cases b with
    | nil => exact absurd h₁ (by simp [cmpNatList])
    | cons y ys =>
      cases c with
      | nil => exact absurd h₂ (by simp [cmpNatList])
      | cons z zs => simp [cmpNatList]
  | cons x xs ih =>
    cases b with
    | nil => exact absurd h₁ (by simp [cmpNatList])
    | cons y ys =>
      cases c with
      | nil => exact absurd h₂ (by simp [cmpNatList])
      | cons z zs =>
        rw [cmpNatList_cons, Ordering.then_eq_lt] at h₁ h₂ ⊢
        rcases h₁ with h₁ | ⟨h₁e, h₁l⟩
        · rcases h₂ with h₂ | ⟨h₂e, h₂l⟩
          · exact Or.inl (Nat.compare_eq_lt.mpr
              (lt_trans (Nat.compare_eq_lt.mp h₁) (Nat.compare_eq_lt.mp h₂)))
          · rw [Nat.compare_eq_eq] at h₂e
            subst h₂e
            exact Or.inl h₁
        · rw [Nat.compare_eq_eq] at h₁e
          subst h₁e
          rcases h₂ with h₂ | ⟨h₂e, h₂l⟩
          · exact Or.inl h₂
          · exact Or.inr ⟨h₂e, ih h₁l h₂l⟩

theorem weight_pair_injective {c d : Char}
    (h₁ : primaryWeight c = primaryWeight d)
    (h₂ : tertiaryWeight c = tertiaryWeight d) : c = d := by
  have hc := c.val.toNat_lt
  have hd := d.val.toNat_lt
  apply Char.ext
  apply UInt32.ext
  show c.toNat = d.toNat
  simp only [primaryWeight, tertiaryWeight] at h₁ h₂
  split_ifs at h₁ h₂ <;> omega

theorem weight_lists_injective {sd td : List Char}
    (h₁ : sd.map primaryWeight = td.map primaryWeight)
    (h₂ : sd.map tertiaryWeight = td.map tertiaryWeight) : sd = td := by
  induction sd generalizing td with
  | nil =>
    cases td with
    | nil => rfl
    | cons y ys => exact absurd h₁ (by simp)
  | cons x xs ih =>
    cases td with
    | nil => exact absurd h₁ (by simp)
    | cons y ys =>
      simp only [List.map_cons, List.cons.injEq] at h₁ h₂ ⊢
      exact ⟨weight_pair_injective h₁.1 h₂.1, ih h₁.2 h₂.2⟩

theorem collation_key_injective {s t : String}
    (h₁ : s.data.map primaryWeight = t.data.map primaryWeight)
    (h₂ : s.data.map tertiaryWeight = t.data.map tertiaryWeight) : s = t :=
  String.ext (weight_lists_injective h₁ h₂)

theorem localeCompare_eq_iff (s t : String) : localeCompare s t = .eq ↔ s = t := by
  constructor
  · intro h
    rw [localeCompare, Ordering.then_eq_eq] at h
    exact collation_key_injective ((cmpNatList_eq_iff _ _).mp h.1)
      ((cmpNatList_eq_iff _ _).mp h.2)
  · intro h
    subst h
    rw [localeCompare, ((cmpNatList_eq_iff _ _).mpr rfl : _),
      ((cmpNatList_eq_iff _ _).mpr rfl : _)]
    rfl

theorem localeCompare_swap (s t : String) : localeCompare s t = (localeCompare t s).swap := by
  rw [localeCompare, localeCompare, Ordering.then_swap, ← cmpNatList_swap, ← cmpNatList_swap]

theorem localeCompare_lt_trans {a b c : String} (h₁ : localeCompare a b = .lt)
    (h₂ : localeCompare b c = .lt) : localeCompare a c = .lt := by
  rw [localeCompare, Ordering.then_eq_lt] at h₁ h₂ ⊢
  rcases h₁ with h₁ | ⟨h₁e, h₁l⟩ <;> rcases h₂ with h₂ | ⟨h₂e, h₂l⟩
  · exact Or.inl (cmpNatList_lt_trans h₁ h₂)
  · rw [cmpNatList_eq_iff] at h₂e
    rw [← h₂e]
    exact Or.inl h₁
  · rw [cmpNatList_eq_iff] at h₁e
    rw [h₁e]
    exact Or.inl h₂
  · rw [cmpNatList_eq_iff] at h₁e h₂e
    exact Or.inr ⟨(cmpNatList_eq_iff _ _).mpr (h₁e.trans h₂e),
      cmpNatList_lt_trans h₁l h₂l⟩

theorem Ordering.eq_then_self (z : Ordering) : Ordering.eq.then z = z := rfl

theorem specSortCompare_chain (a b : BenchmarkSpec) :
    specSortCompare a b =
      (localeCompare a.name b.name).then
        ((localeCompare a.variant b.variant).then
          ((localeCompare a.implementation b.implementation).then
            (localeCompare a.version.label b.version.label))) := by
  unfold specSortCompare
  by_cases h1 : a.name = b.name
  · have e1 : localeCompare a.name b.name = .eq := (localeCompare_eq_iff _ _).mpr h1
    rw [if_neg (by simpa using h1), e1, Ordering.eq_then_self]
    by_cases h2 : a.variant = b.variant
    · have e2 : localeCompare a.variant b.variant = .eq := (localeCompare_eq_iff _ _).mpr h2
      rw [if_neg (by simpa using h2), e2, Ordering.eq_then_self]
      by_cases h3 : a.implementation = b.implementation
      · have e3 : localeCompare a.implementation b.implementation = .eq :=
          (localeCompare_eq_iff _ _).mpr h3
        rw [if_neg (by simpa using h3), e3, Ordering.eq_then_self]
        by_cases h4 : a.version.label = b.version.label
        · have e4 : localeCompare a.version.label b.version.label = .eq :=
            (localeCompare_eq_iff _ _).mpr h4
          rw [if_neg (by simpa using h4), e4]
        · rw [if_pos (by simpa using h4)]
      · rw [if_pos (by simpa using h3)]
        exact (Ordering.then_eq_left fun hc => h3 ((localeCompare_eq_iff _ _).mp hc)).symm
    · rw [if_pos (by simpa using h2)]
      exact (Ordering.then_eq_left fun hc => h2 ((localeCompare_eq_iff _ _).mp hc)).symm
  · rw [if_pos (by simpa using h1)]
    exact (Ordering.then_eq_left fun hc => h1 ((localeCompare_eq_iff _ _).mp hc)).symm

theorem proj_lc_base_trans {α : Type} (π : α → String) {x y z : α}
    (h₁ : localeCompare (π x) (π y) ≠ .gt) (h₂ : localeCompare (π y) (π z) ≠ .gt) :
    localeCompare (π x) (π z) ≠ .gt := by
  rcases hxy : localeCompare (π x) (π y) with _ | _ | _
  · rcases hyz : localeCompare (π y) (π z) with _ | _ | _
    · simp [localeCompare_lt_trans hxy hyz]
    · rw [← (localeCompare_eq_iff _ _).mp hyz, hxy]
      simp
    · exact absurd hyz h₂
  · rw [(localeCompare_eq_iff _ _).mp hxy]
    exact h₂
  · exact absurd hxy h₁

theorem proj_lc_then_trans {α : Type} (π : α → String) (rest : α → α → Ordering)
    (hrest : ∀ {x y z : α}, rest x y ≠ .gt → rest y z ≠ .gt → rest x z ≠ .gt)
    {x y z : α}
    (h₁ : (localeCompare (π x) (π y)).then (rest x y) ≠ .gt)
    (h₂ : (localeCompare (π y) (π z)).then (rest y z) ≠ .gt) :
    (localeCompare (π x) (π z)).then (rest x z) ≠ .gt := by
  rw [Ordering.then_ne_gt] at h₁ h₂ ⊢
  rcases h₁ with h₁ | ⟨h₁e, h₁r⟩ <;> rcases h₂ with h₂ | ⟨h₂e, h₂r⟩
  · exact Or.inl (localeCompare_lt_trans h₁ h₂)
  · rw [← (localeCompare_eq_iff _ _).mp h₂e]
    exact Or.inl h₁
  · rw [(localeCompare_eq_iff _ _).mp h₁e]
    exact Or.inl h₂
  · exact Or.inr ⟨(localeCompare_eq_iff _ _).mpr
      (((localeCompare_eq_iff _ _).mp h₁e).trans ((localeCompare_eq_iff _ _).mp h₂e)),
      hrest h₁r h₂r⟩

instance specLe_isTrans : IsTrans BenchmarkSpec specLe := by
  constructor
  intro a b c hab hbc
  unfold specLe at *
  rw [specSortCompare_chain] at *
  exact proj_lc_then_trans (fun s : BenchmarkSpec => s.name)
    (fun x y : BenchmarkSpec => (localeCompare x.variant y.variant).then
      ((localeCompare x.implementation y.implementation).then
        (localeCompare x.version.label y.version.label)))
    (fun hr1 hr2 => proj_lc_then_trans (fun s : BenchmarkSpec => s.variant)
      (fun x y : BenchmarkSpec => (localeCompare x.implementation y.implementation).then
        (localeCompare x.version.label y.version.label))
      (fun hs1 hs2 => proj_lc_then_trans (fun s : BenchmarkSpec => s.implementation)
        (fun x y : BenchmarkSpec => localeCompare x.version.label y.version.label)
        (fun ht1 ht2 => proj_lc_base_trans (fun s : BenchmarkSpec => s.version.label) ht1 ht2)
        hs1 hs2)
      hr1 hr2)
    hab hbc

theorem specSortCompare_swap (a b : BenchmarkSpec) :
    specSortCompare a b = (specSortCompare b a).swap := by
  rw [specSortCompare_chain, specSortCompare_chain, Ordering.then_swap,
    Ordering.then_swap, Ordering.then_swap, ← localeCompare_swap, ← localeCompare_swap,
    ← localeCompare_swap, ← localeCompare_swap]

instance specLe_isTotal : IsTotal BenchmarkSpec specLe := by
  constructor
  intro a b
  unfold specLe
  rcases h : specSortCompare a b with _ | _ | _
  · exact Or.inl (by simp)
  · exact Or.inl (by simp)
  · refine Or.inr ?_
    rw [specSortCompare_swap, h]
    simp [Ordering.swap]

/-!
### Inversion helpers
-/

theorem except_bind_ok {ε α β : Type} {e : Except ε α} {f : α → Except ε β} {b : β} :
    (e >>= f) = .ok b ↔ ∃ a, e = .ok a ∧ f a = .ok b := by
  cases e <;> simp [Except.bind, Bind.bind]

/-!
### Claim C2 — ordering of `specsFromOpts` output
-/

/-- C2 (counterexample): `specsFromOpts` output is NOT always sorted by
ordinal (code-unit) string comparison — the source sorts with
`localeCompare`, which is locale-aware collation.  With benchmarks named
`a` and `B` the output is `[a, B]` (collation puts `a` before `B`),
while ordinal order puts `"B"` (code unit 66) before `"a"` (code unit
97), so the claimed ordinal key of the adjacent pair is decreasing. -/
theorem specsFromOpts_not_ordinal_sorted :
    specsFromOpts fsLetters [] optsLetters = .ok [specLowerA, specUpperB] ∧
      specOrdinalLe specLowerA specUpperB = false := by
  decide

/-- C2 (amended): every successful `specsFromOpts` result is sorted
non-decreasingly under the comparator the code actually uses — the
lexicographic `(name, variant, implementation, version.label)` key
compared with `localeCompare` — so every adjacent pair `(a, b)` of the
output satisfies `specSortCompare a b ≠ .gt`. -/
theorem specsFromOpts_sorted_by_comparator (fs : SpecsFs) (repoRoot : FsPath)
    (opts : Opts) (l : List BenchmarkSpec)
    (h : specsFromOpts fs repoRoot opts = .ok l) : l.Pairwise specLe := by
  unfold specsFromOpts at h
  rw [except_bind_ok] at h
  obtain ⟨versions, -, h⟩ := h
  rw [except_bind_ok] at h
  obtain ⟨impls, -, h⟩ := h
  rw [except_bind_ok] at h
  obtain ⟨raw, -, h⟩ := h
  simp only [Except.ok.injEq] at h
  subst h
  exact List.sorted_insertionSort specLe raw

/-- C2 (witness for the amended theorem). -/
theorem specsFromOpts_sorted_by_comparator_witness :
    List.Pairwise specLe [specLowerA, specUpperB] :=
  specsFromOpts_sorted_by_comparator fsLetters [] optsLetters _ (by decide)

/-!
### Claim C9 — `prepareVersionDirectory` idempotence
-/

/-- C9: if the install directory already exists,
`prepareVersionDirectory` returns immediately and leaves the world
unchanged (no directory creation, no manifest write, no package-manager
invocation); and two successive calls with the same install invoke the
package manager at most once. -/
theorem prepareVersionDirectory_idempotent (inst : NpmInstall) (w : World) :
    (w.pathExists inst.installDir = true → prepareVersionDirectory inst w = w) ∧
      (prepareVersionDirectory inst (prepareVersionDirectory inst w)).npmInstallCalls.length ≤
        w.npmInstallCalls.length + 1 := by
  constructor
  · intro h
    simp [prepareVersionDirectory, h]
  · by_cases h : w.pathExists inst.installDir
    · simp [prepareVersionDirectory, h]
    · simp only [prepareVersionDirectory, h]
      simp

/-- C9 (witness). -/
theorem prepareVersionDirectory_idempotent_witness :
    (fullWorld.pathExists instSample.installDir = true →
      prepareVersionDirectory instSample fullWorld = fullWorld) ∧
      (prepareVersionDirectory instSample
        (prepareVersionDirectory instSample fullWorld)).npmInstallCalls.length ≤
        fullWorld.npmInstallCalls.length + 1 :=
  prepareVersionDirectory_idempotent instSample fullWorld

/-!
### Claim C10 — the grouper's internal-error branch is unreachable
-/

theorem keyPush_keys_sub (m : List (InstallKey × List BenchmarkSpec)) (k : InstallKey)
    (v : BenchmarkSpec) (k' : InstallKey) :
    k' ∈ (keyPush m k v).map Prod.fst → k' = k ∨ k' ∈ m.map Prod.fst := by
  induction m with
  | nil => simp [keyPush]
  | cons hd tl ih =>
    obtain ⟨hk, hv⟩ := hd
    simp only [keyPush]
    by_cases he : hk = k
    · rw [if_pos he]
      simp_all
    · rw [if_neg he]
      simp only [List.map_cons, List.mem_cons]
      rintro (h | h)
      · exact Or.inr (Or.inl h)
      · rcases ih h with h' | h'
        · exact Or.inl h'
        · exact Or.inr (Or.inr h')

theorem keySet_mem_lookup (m : List (InstallKey × DepMap)) (k : InstallKey) (v : DepMap)
    (k' : InstallKey) :
    listLookup (keySet m k v) k' ≠ none ↔ k' = k ∨ listLookup m k' ≠ none := by
  induction m with
  | nil =>
    simp only [keySet, listLookup]
    by_cases h : k = k'
    · simp [h]
    · simp only [if_neg h]
      constructor
      · exact fun h' => absurd rfl h'
      · rintro (h' | h')
        · exact absurd h'.symm h
        · exact absurd rfl h'
  | cons hd tl ih =>
    obtain ⟨hk, hv⟩ := hd
    simp only [keySet]
    by_cases he : hk = k
    · subst he
      rw [if_pos rfl]
      by_cases h2 : hk = k'
      · simp [listLookup, h2]
      · simp only [listLookup, if_neg h2]
        constructor
        · exact fun h' => Or.inr h'
        · rintro (h' | h')
          · exact absurd h'.symm h2
          · exact h'
    · rw [if_neg he]
      by_cases h2 : hk = k'
      · simp [listLookup, h2]
      · simp only [listLookup, if_neg h2]
        exact ih

theorem groupStep_depsCover {fs : PlanFs} {benchmarkRoot : FsPath} {st st' : GroupState}
    {spec : BenchmarkSpec} (hc : depsCover st)
    (h : groupStep fs benchmarkRoot st spec = .ok st') : depsCover st' := by
  unfold groupStep at h
  split at h
  · exact absurd h (by simp)
  · simp only [Except.ok.injEq] at h
    subst h
    exact hc
  · split at h
    · simp only [Except.ok.injEq] at h
      subst h
      exact hc
    · split at h
      · exact absurd h (by simp)
      · split at h
        · exact absurd h (by simp)
        · simp only [Except.ok.injEq] at h
          subst h
          intro k hk'
          rcases keyPush_keys_sub _ _ _ _ hk' with he | hm
          · subst he
            rw [keySet_mem_lookup]
            exact Or.inl rfl
          · rw [keySet_mem_lookup]
            exact Or.inr (hc k hm)

theorem groupLoop_depsCover {fs : PlanFs} {benchmarkRoot : FsPath} {st st' : GroupState}
    {specs : List BenchmarkSpec} (hc : depsCover st)
    (h : groupLoop fs benchmarkRoot st specs = .ok st') : depsCover st' := by
  induction specs generalizing st with
  | nil =>
    simp only [groupLoop, Except.ok.injEq] at h
    subst h
    exact hc
  | cons s rest ih =>
    simp only [groupLoop] at h
    rw [except_bind_ok] at h
    obtain ⟨st1, h1, h2⟩ := h
    exact ih (groupStep_depsCover hc h1) h2

theorem groupStep_not_internal {fs : PlanFs} {benchmarkRoot : FsPath} {st : GroupState}
    {spec : BenchmarkSpec} :
    groupStep fs benchmarkRoot st spec ≠ .error .internalError := by
  unfold groupStep
  split
  · simp
  · simp
  · split
    · simp
    · split
      · simp
      · split
        · simp
        · simp

theorem groupLoop_not_internal {fs : PlanFs} {benchmarkRoot : FsPath} {st : GroupState}
    {specs : List BenchmarkSpec}
    (hc : groupLoop fs benchmarkRoot st specs = .error .internalError) : False := by
  induction specs generalizing st with
  | nil => simp [groupLoop] at hc
  | cons s rest ih =>
    simp only [groupLoop] at hc
    rcases h : groupStep fs benchmarkRoot st s with e | st'
    · rw [h] at hc
      simp only [Except.bind, Bind.bind, Except.error.injEq] at hc
      subst hc
      exact groupStep_not_internal h
    · rw [h] at hc
      simp only [Except.bind, Bind.bind] at hc
      exact ih hc

theorem emitPlans_no_error {benchmarkRoot npmInstallRoot : FsPath}
    {keyDeps : List (InstallKey × DepMap)}
    {buckets : List (InstallKey × List BenchmarkSpec)}
    (hc : ∀ k ∈ buckets.map Prod.fst, listLookup keyDeps k ≠ none) :
    ∀ err, emitPlans benchmarkRoot npmInstallRoot keyDeps buckets ≠ .error err := by
  induction buckets with
  | nil => simp [emitPlans]
  | cons hd tl ih =>
    obtain ⟨⟨pd, impl, label⟩, specs⟩ := hd
    intro err
    simp only [emitPlans]
    rcases hk : listLookup keyDeps (pd, impl, label) with - | deps
    · exact absurd hk (hc (pd, impl, label) (by simp))
    · rcases hp : emitPlans benchmarkRoot npmInstallRoot keyDeps tl with e | plans
      · exact absurd hp (ih (fun k h => hc k (by simp [h])) e)
      · simp [hp, Except.bind, Bind.bind]

/-- C10: the "no deps for key" internal-error branch of `makeServerPlans`
is unreachable — both maps are written in the same loop iteration, so
every key bucket has a dependency map, and no input (spec list or disk
state) can make `makeServerPlans` return the internal error. -/
theorem makeServerPlans_no_internal_error (fs : PlanFs)
    (benchmarkRoot npmInstallRoot : FsPath) (specs : List BenchmarkSpec) :
    isInternalError (makeServerPlans fs benchmarkRoot npmInstallRoot specs) = false := by
  unfold makeServerPlans
  rcases hl : groupLoop fs benchmarkRoot ⟨[], [], []⟩ specs with e | st
  · have he : e ≠ .internalError := by
      intro hcontra
      subst hcontra
      exact groupLoop_not_internal hl
    cases e <;> simp [Except.bind, Bind.bind, isInternalError]
    exact absurd rfl he
  · have hc : depsCover st :=
      groupLoop_depsCover (by intro k h; simp at h) hl
    rcases hp : emitPlans benchmarkRoot npmInstallRoot st.keyDeps st.keySpecs with e | plans
    · exact absurd hp (emitPlans_no_error hc e)
    · simp [hp, Except.bind, Bind.bind, isInternalError]

/-!
### Structure of the flag regex matcher
-/

theorem findEqAux_split {t l r : List Char} (h : findEqAux t = some (l, r)) :
    t = l ++ '=' :: r ∧ r ≠ [] := by
  induction t generalizing l r with
  | nil => simp [findEqAux] at h
  | cons c rest ih =>
    simp only [findEqAux] at h
    split at h
    · rename_i hc
      simp only [Option.some.injEq, Prod.mk.injEq] at h
      obtain ⟨h1, h2⟩ := h
      subst h1
      subst h2
      exact ⟨by simp [hc.1], hc.2⟩
    · rename_i hc
      rcases hrec : findEqAux rest with - | ⟨l', r'⟩
      · rw [hrec] at h
        simp at h
      · rw [hrec] at h
        simp only [Option.some.injEq, Prod.mk.injEq] at h
        obtain ⟨h1, h2⟩ := h
        subst h2
        obtain ⟨hs, hr⟩ := ih hrec
        subst h1
        exact ⟨by rw [List.cons_append, ← hs], hr⟩

theorem findEqAux_isSome {t : List Char} (a r : List Char)
    (h : t = a ++ '=' :: r) (hr : r ≠ []) : findEqAux t ≠ none := by
  induction a generalizing t with
  | nil =>
    subst h
    simp [findEqAux, hr]
  | cons c cs ih =>
    subst h
    simp only [findEqAux, List.cons_append]
    split
    · simp
    · rcases hrec : findEqAux (cs ++ '=' :: r) with - | ⟨l', r'⟩
      · exact absurd hrec (ih rfl)
      · simp

theorem findEq_split {t l r : List Char} (h : findEq t = some (l, r)) :
    t = l ++ '=' :: r ∧ l ≠ [] ∧ r ≠ [] := by
  cases t with
  | nil => simp [findEq] at h
  | cons c rest =>
    simp only [findEq] at h
    rcases hrec : findEqAux rest with - | ⟨l', r'⟩
    · rw [hrec] at h
      simp at h
    · rw [hrec] at h
      simp only [Option.some.injEq, Prod.mk.injEq] at h
      obtain ⟨h1, h2⟩ := h
      subst h2
      obtain ⟨hs, hr⟩ := findEqAux_split hrec
      subst h1
      exact ⟨by rw [List.cons_append, ← hs], by simp, hr⟩

theorem findEq_isSome {t : List Char} (a r : List Char) (h : t = a ++ '=' :: r)
    (ha : a ≠ []) (hr : r ≠ []) : findEq t ≠ none := by
  cases a with
  | nil => exact absurd rfl ha
  | cons c cs =>
    subst h
    simp only [findEq, List.cons_append]
    rcases hrec : findEqAux (cs ++ '=' :: r) with - | ⟨l', r'⟩
    · exact absurd hrec (findEqAux_isSome cs r rfl hr)
    · simp

theorem tailMatch_labeled {t : List Char} {l r : List Char}
    (h : tailMatch t = some (some (l, r))) :
    findEq t = some (l, r) := by
  unfold tailMatch at h
  split at h
  · simp at h
  · rcases hf : findEq t with - | ⟨l', r'⟩
    · rw [hf] at h
      simp at h
    · rw [hf] at h
      simp only [Option.some.injEq] at h
      exact congrArg some h

theorem tailMatch_ne_none_of_eq {t : List Char} (a r : List Char)
    (h : t = a ++ '=' :: r) (ha : a ≠ []) (hr : r ≠ []) : tailMatch t ≠ none := by
  unfold tailMatch
  split
  · simp
  · rcases hf : findEq t with - | ⟨l', r'⟩
    · exact absurd hf (findEq_isSome a r h ha hr)
    · simp

theorem flagMatchAux_split {cs pre : List Char}
    {res : Option (List Char × List Char)}
    (h : flagMatchAux cs = some (pre, res)) :
    ∃ tail, cs = pre ++ '/' :: tail ∧ tailMatch tail = some res := by
  induction cs generalizing pre with
  | nil => simp [flagMatchAux] at h
  | cons c rest ih =>
    simp only [flagMatchAux] at h
    split at h
    · rename_i hc
      subst hc
      rcases ht : tailMatch rest with - | res'
      · rw [ht] at h
        rcases hrec : flagMatchAux rest with - | ⟨pre', res''⟩
        · rw [hrec] at h
          simp at h
        · rw [hrec] at h
          simp only [Option.some.injEq, Prod.mk.injEq] at h
          obtain ⟨h1, h2⟩ := h
          subst h2
          obtain ⟨tail, hs, htm⟩ := ih hrec
          subst h1
          exact ⟨tail, by rw [List.cons_append, ← hs], htm⟩
      · rw [ht] at h
        simp only [Option.some.injEq, Prod.mk.injEq] at h
        obtain ⟨h1, h2⟩ := h
        subst h2
        subst h1
        exact ⟨rest, by simp, ht⟩
    · rename_i hc
      rcases hrec : flagMatchAux rest with - | ⟨pre', res''⟩
      · rw [hrec] at h
        simp at h
      · rw [hrec] at h
        simp only [Option.some.injEq, Prod.mk.injEq] at h
        obtain ⟨h1, h2⟩ := h
        subst h2
        obtain ⟨tail, hs, htm⟩ := ih hrec
        subst h1
        exact ⟨tail, by rw [List.cons_append, ← hs], htm⟩

theorem flagMatchAux_labeled_no_slash {cs pre : List Char} {lr : List Char × List Char}
    (h : flagMatchAux cs = some (pre, some lr)) : '/' ∉ pre := by
  induction cs generalizing pre with
  | nil => simp [flagMatchAux] at h
  | cons c rest ih =>
    simp only [flagMatchAux] at h
    split at h
    · rename_i hc
      subst hc
      rcases ht : tailMatch rest with - | res'
      · rw [ht] at h
        rcases hrec : flagMatchAux rest with - | ⟨pre', res''⟩
        · rw [hrec] at h
          simp at h
        · rw [hrec] at h
          simp only [Option.some.injEq, Prod.mk.injEq] at h
          obtain ⟨h1, h2⟩ := h
          subst h2
          -- the later '/' found an `=`-form tail, so this earlier tail
          -- would also have matched: contradiction with ht
          obtain ⟨tail, hs, htm⟩ := flagMatchAux_split hrec
          obtain ⟨l, r⟩ := lr
          have hfe := findEq_split (tailMatch_labeled htm)
          obtain ⟨hteq, hl, hr⟩ := hfe
          exfalso
          rcases pre' with - | ⟨d, ds⟩
          · simp only [List.nil_append] at hs
            have : tailMatch rest ≠ none := by
              rw [hs, hteq]
              exact tailMatch_ne_none_of_eq ('/' :: l) r (by simp) (by simp) hr
            exact this ht
          · have : tailMatch rest ≠ none := by
              rw [hs, hteq]
              exact tailMatch_ne_none_of_eq (d :: (ds ++ '/' :: l)) r (by simp) (by simp) hr
            exact this ht
      · rw [ht] at h
        simp only [Option.some.injEq, Prod.mk.injEq] at h
        obtain ⟨h1, h2⟩ := h
        subst h1
        simp
    · rename_i hc
      rcases hrec : flagMatchAux rest with - | ⟨pre', res''⟩
      · rw [hrec] at h
        simp at h
      · rw [hrec] at h
        simp only [Option.some.injEq, Prod.mk.injEq] at h
        obtain ⟨h1, h2⟩ := h
        subst h2
        subst h1
        intro hmem
        rcases List.mem_cons.mp hmem with he | hmem'
        · exact hc he.symm
        · exact ih hrec hmem'

/-- The implementation group of a labeled (`=`-form) flag match is
non-empty and contains `/` at most as its first character. -/
theorem flagMatch_labeled_impl_shape {cs implC : List Char} {lr : List Char × List Char}
    (h : flagMatch cs = some (implC, some lr)) :
    implC ≠ [] ∧ '/' ∉ implC.drop 1 := by
  cases cs with
  | nil => simp [flagMatch] at h
  | cons c rest =>
    simp only [flagMatch] at h
    rcases hrec : flagMatchAux rest with - | ⟨pre', res''⟩
    · rw [hrec] at h
      simp at h
    · rw [hrec] at h
      simp only [Option.some.injEq, Prod.mk.injEq] at h
      obtain ⟨h1, h2⟩ := h
      subst h2
      subst h1
      exact ⟨by simp, by simpa using flagMatchAux_labeled_no_slash hrec⟩

/-- Splitting a list at a marker absent from the left parts is
unambiguous. -/
theorem marker_split_unique {m : Char} {p₁ p₂ l₁ l₂ : List Char}
    (h : p₁ ++ m :: l₁ = p₂ ++ m :: l₂) (h₁ : m ∉ p₁) (h₂ : m ∉ p₂) :
    p₁ = p₂ ∧ l₁ = l₂ := by
  induction p₁ generalizing p₂ with
  | nil =>
    cases p₂ with
    | nil => simpa using h
    | cons d ds =>
      simp only [List.nil_append, List.cons_append, List.cons.injEq] at h
      exact absurd (h.1 ▸ List.mem_cons_self d ds) (by simpa [← h.1] using h₂)
  | cons e es ih =>
    cases p₂ with
    | nil =>
      simp only [List.nil_append, List.cons_append, List.cons.injEq] at h
      exact absurd (h.1 ▸ List.mem_cons_self e es) (by simpa [h.1] using h₁)
    | cons d ds =>
      simp only [List.cons_append, List.cons.injEq] at h
      obtain ⟨he, hrest⟩ := h
      subst he
      obtain ⟨hp, hl⟩ := ih hrest (fun hm => h₁ (List.mem_cons_of_mem _ hm))
        (fun hm => h₂ (List.mem_cons_of_mem _ hm))
      exact ⟨by rw [hp], hl⟩

/-- The `implementation ++ "/" ++ label` strings of the duplicate-label
set determine the `(implementation, label)` pairs, for the shapes the
flag regex produces. -/
theorem implLabel_join_injective {i₁ i₂ l₁ l₂ : List Char}
    (hi₁ : i₁ ≠ [] ∧ '/' ∉ i₁.drop 1) (hi₂ : i₂ ≠ [] ∧ '/' ∉ i₂.drop 1)
    (h : i₁ ++ '/' :: l₁ = i₂ ++ '/' :: l₂) : i₁ = i₂ ∧ l₁ = l₂ := by
  rcases i₁ with - | ⟨c₁, p₁⟩
  · exact absurd rfl hi₁.1
  · rcases i₂ with - | ⟨c₂, p₂⟩
    · exact absurd rfl hi₂.1
    · simp only [List.cons_append, List.cons.injEq] at h
      obtain ⟨hc, hrest⟩ := h
      subst hc
      obtain ⟨hp, hl⟩ := marker_split_unique hrest (by simpa using hi₁.2)
        (by simpa using hi₂.2)
      exact ⟨by rw [hp], hl⟩

/-!
### Claim C4 — when `ParseError` is thrown
-/

theorem parseEntriesAux_ok_of_all {entries : List String}
    (h : ∀ pv ∈ entries, pvMatch pv.data ≠ none) (acc : List (String × String)) :
    ∃ ov, parseEntriesAux acc entries = .ok ov := by
  induction entries generalizing acc with
  | nil => exact ⟨acc, rfl⟩
  | cons pv rest ih =>
    simp only [parseEntriesAux]
    rcases hm : pvMatch pv.data with - | ⟨pkg, version⟩
    · exact absurd hm (h pv (by simp))
    · exact ih (fun p hp => h p (by simp [hp])) _

theorem parseEntriesAux_all_of_ok {entries : List String} {acc ov : List (String × String)}
    (h : parseEntriesAux acc entries = .ok ov) :
    ∀ pv ∈ entries, pvMatch pv.data ≠ none := by
  induction entries generalizing acc with
  | nil => simp
  | cons pv rest ih =>
    simp only [parseEntriesAux] at h
    rcases hm : pvMatch pv.data with - | ⟨pkg, version⟩
    · rw [hm] at h
      simp at h
    · rw [hm] at h
      intro p hp
      rcases List.mem_cons.mp hp with he | hp'
      · subst he
        simp [hm]
      · exact ih h p hp'

theorem parseEntriesAux_parse_error {entries : List String}
    (h : ¬ ∀ pv ∈ entries, pvMatch pv.data ≠ none) (acc : List (String × String)) :
    isParseError (parseEntriesAux acc entries) = true := by
  induction entries generalizing acc with
  | nil => simp at h
  | cons pv rest ih =>
    simp only [parseEntriesAux]
    rcases hm : pvMatch pv.data with - | ⟨pkg, version⟩
    · simp [isParseError]
    · refine ih (fun hall => h ?_) _
      intro p hp
      rcases List.mem_cons.mp hp with he | hp'
      · subst he
        simp [hm]
      · exact hall p hp'

theorem ppvLoop_no_parse_error {flags : List String}
    (h : ∀ f ∈ flags, effFlagOk f = true) (versions : List (String × List PackageVersion))
    (seen : List String) : isParseError (ppvLoop versions seen flags) = false := by
  induction flags generalizing versions seen with
  | nil => simp [ppvLoop, isParseError]
  | cons flag rest ih =>
    have hf := h flag (by simp)
    simp only [ppvLoop]
    rcases hm : flagMatch flag.data with - | ⟨implC, - | ⟨labelC, pvsC⟩⟩
    · rw [effFlagOk, hm] at hf
      simp at hf
    · exact ih (fun f hf' => h f (by simp [hf'])) _ _
    · rw [effFlagOk, hm] at hf
      dsimp only
      split
      · simp [isParseError]
      · obtain ⟨ov, hov⟩ := parseEntriesAux_ok_of_all
          (fun pv hpv => by simpa using (List.all_eq_true.mp hf) pv hpv) []
        rw [hov]
        exact ih (fun f hf' => h f (by simp [hf'])) _ _

theorem ppvLoop_ok_all_eff {flags : List String}
    {versions m : List (String × List PackageVersion)} {seen : List String}
    (h : ppvLoop versions seen flags = .ok m) : ∀ f ∈ flags, effFlagOk f = true := by
  induction flags generalizing versions seen with
  | nil => simp
  | cons flag rest ih =>
    simp only [ppvLoop] at h
    rcases hm : flagMatch flag.data with - | ⟨implC, - | ⟨labelC, pvsC⟩⟩ <;> rw [hm] at h
    · simp at h
    · intro f hf
      rcases List.mem_cons.mp hf with he | hf'
      · subst he
        simp [effFlagOk, hm]
      · exact ih h f hf'
    · dsimp only at h
      split at h
      · simp at h
      · rcases hov : parseEntriesAux [] (splitComma (String.mk pvsC)) with e | ov
        · rw [hov] at h
          simp at h
        · rw [hov] at h
          intro f hf
          rcases List.mem_cons.mp hf with he | hf'
          · subst he
            rw [effFlagOk, hm]
            exact List.all_eq_true.mpr fun pv hpv => by
              simpa using parseEntriesAux_all_of_ok hov pv hpv
          · exact ih h f hf'

/-- C4 (counterexample): the flag `i/defaultx` matches neither grammar
form of the spec (it is not `<implementation>/default` and contains no
`=`), yet `parsePackageVersions` accepts it — the unanchored regex
matches the `default` alternative as a prefix and ignores the trailing
`x` — so "every flag matching neither form is rejected with ParseError"
is false. -/
theorem parse_error_grammar_counterexample :
    specGrammarOk "i/defaultx" = false ∧
      parsePackageVersions ["i/defaultx"] = .ok [("i", [defaultVersion])] := by
  decide

/-- C4 (amended): `ParseError` is raised exactly at the code's effective
flag pattern, which differs from the spec grammar in accepting
`<implementation>/default` with arbitrary trailing characters (ignored):
(a) if every flag is accepted by the effective pattern the parse never
raises `ParseError`; (b) a successful parse means every flag was
accepted; (c) a flag list whose first flag is rejected always raises
`ParseError` (later rejected flags can be pre-empted by an earlier
`DuplicateLabelError`). -/
theorem parsePackageVersions_parse_error_iff :
    (∀ flags : List String, (∀ f ∈ flags, effFlagOk f = true) →
      isParseError (parsePackageVersions flags) = false) ∧
    (∀ (flags : List String) m, parsePackageVersions flags = .ok m →
      ∀ f ∈ flags, effFlagOk f = true) ∧
    (∀ (f : String) (rest : List String), effFlagOk f = false →
      isParseError (parsePackageVersions (f :: rest)) = true) := by
  refine ⟨fun flags h => ppvLoop_no_parse_error h [] [],
    fun flags m h => ppvLoop_ok_all_eff h, fun f rest hf => ?_⟩
  rw [parsePackageVersions]
  simp only [ppvLoop]
  rcases hm : flagMatch f.data with - | ⟨implC, - | ⟨labelC, pvsC⟩⟩
  · simp [isParseError]
  · rw [effFlagOk, hm] at hf
    simp at hf
  · rw [effFlagOk, hm] at hf
    dsimp only at hf
    have : ¬ ∀ pv ∈ splitComma (String.mk pvsC), pvMatch pv.data ≠ none := by
      intro hall
      have hall' : ((splitComma (String.mk pvsC)).all
          fun pv => decide (pvMatch pv.data ≠ none)) = true :=
        List.all_eq_true.mpr fun pv hpv => by simpa using hall pv hpv
      rw [hall'] at hf
      exact Bool.noConfusion hf
    have hcontains : (List.contains ([] : List String)
        (String.mk implC ++ "/" ++ String.mk labelC)) = false := rfl
    dsimp only
    rw [if_neg (by simp [hcontains])]
    rcases hov : parseEntriesAux [] (splitComma (String.mk pvsC)) with e | ov
    · have := parseEntriesAux_parse_error this []
      rw [hov] at this
      cases e <;> simp [isParseError] at this ⊢
    · have := parseEntriesAux_parse_error this []
      rw [hov] at this
      simp [isParseError] at this

/-- C4 (witness for the amended theorem). -/
theorem parsePackageVersions_parse_error_iff_witness :
    isParseError (parsePackageVersions ["bad-flag"]) = true :=
  parsePackageVersions_parse_error_iff.2.2 "bad-flag" [] (by decide)

/-!
### Claim C5 — when `DuplicateLabelError` is thrown
-/

theorem pairJoin_data (a b : String) : (pairJoin (a, b)).data = a.data ++ '/' :: b.data := by
  show (a ++ "/" ++ b).data = _
  have : (a ++ "/" ++ b).data = a.data ++ "/".data ++ b.data := rfl
  rw [this]
  simp

theorem parseEntriesAux_error_parse {entries : List String}
    {acc : List (String × String)} {e : JsError}
    (h : parseEntriesAux acc entries = .error e) : ∃ msg, e = .parseError msg := by
  induction entries generalizing acc with
  | nil => simp [parseEntriesAux] at h
  | cons pv rest ih =>
    simp only [parseEntriesAux] at h
    rcases hm : pvMatch pv.data with - | ⟨pkg, version⟩ <;> rw [hm] at h
    · simp only [Except.error.injEq] at h
      exact ⟨pv, h.symm⟩
    · exact ih h

theorem labeledPairs_cons_none {f : String} {rest : List String}
    (hm : flagMatch f.data = none) :
    labeledPairs (f :: rest) = labeledPairs rest := by
  simp [labeledPairs, List.filterMap_cons, hm]

theorem labeledPairs_cons_default {f : String} {rest : List String} {i : List Char}
    (hm : flagMatch f.data = some (i, none)) :
    labeledPairs (f :: rest) = labeledPairs rest := by
  simp [labeledPairs, List.filterMap_cons, hm]

theorem labeledPairs_cons_labeled {f : String} {rest : List String} {i l p : List Char}
    (hm : flagMatch f.data = some (i, some (l, p))) :
    labeledPairs (f :: rest) = (String.mk i, String.mk l) :: labeledPairs rest := by
  simp [labeledPairs, List.filterMap_cons, hm]

theorem flagMatch_goodImpl {f : String} {i l p : List Char}
    (hm : flagMatch f.data = some (i, some (l, p))) : goodImpl (String.mk i) :=
  flagMatch_labeled_impl_shape hm

theorem pairJoin_injective {q q' : String × String} (hq : goodImpl q.1)
    (hq' : goodImpl q'.1) (h : pairJoin q = pairJoin q') : q = q' := by
  obtain ⟨a, b⟩ := q
  obtain ⟨a', b'⟩ := q'
  have hd : (pairJoin (a, b)).data = (pairJoin (a', b')).data := by rw [h]
  rw [pairJoin_data, pairJoin_data] at hd
  obtain ⟨hi, hl⟩ := implLabel_join_injective ⟨hq.1, hq.2⟩ ⟨hq'.1, hq'.2⟩ hd
  exact Prod.ext (String.ext hi) (String.ext hl)

theorem ppvLoop_dup_sound {flags : List String}
    {versions : List (String × List PackageVersion)} {seen : List String}
    {P : List (String × String)}
    (hseen : ∀ x, seen.contains x = true ↔ ∃ p ∈ P, x = pairJoin p)
    (hgood : ∀ p ∈ P, goodImpl p.1)
    (hdup : isDupLabelError (ppvLoop versions seen flags) = true) :
    ¬ (P ++ labeledPairs flags).Nodup := by
  induction flags generalizing versions seen P with
  | nil => simp [ppvLoop, isDupLabelError] at hdup
  | cons flag rest ih =>
    simp only [ppvLoop] at hdup
    rcases hm : flagMatch flag.data with - | ⟨implC, - | ⟨labelC, pvsC⟩⟩ <;> rw [hm] at hdup
    · simp [isDupLabelError] at hdup
    · rw [labeledPairs_cons_default hm]
      exact ih hseen hgood hdup
    · rw [labeledPairs_cons_labeled hm]
      dsimp only at hdup
      split at hdup
      · rename_i hcontains
        obtain ⟨p', hp'mem, hp'eq⟩ := (hseen _).mp hcontains
        have hq : (String.mk implC, String.mk labelC) = p' :=
          pairJoin_injective (flagMatch_goodImpl hm) (hgood p' hp'mem) hp'eq
        intro hnd
        have hdisj := List.disjoint_of_nodup_append hnd
        exact hdisj (hq ▸ hp'mem) (List.mem_cons_self _ _)
      · rename_i hcontains
        rcases hov : parseEntriesAux [] (splitComma (String.mk pvsC)) with e | ov <;>
          rw [hov] at hdup
        · obtain ⟨msg, hmsg⟩ := parseEntriesAux_error_parse hov
          subst hmsg
          simp [isDupLabelError] at hdup
        · have hseen' : ∀ x,
              ((pairJoin (String.mk implC, String.mk labelC) :: seen).contains x = true ↔
                ∃ p ∈ P ++ [(String.mk implC, String.mk labelC)], x = pairJoin p) := by
            intro x
            rw [List.contains_cons]
            simp only [Bool.or_eq_true, beq_iff_eq, hseen x]
            constructor
            · rintro (he | ⟨p, hp, he⟩)
              · exact ⟨_, by simp, he⟩
              · exact ⟨p, by simp [hp], he⟩
            · rintro ⟨p, hp, he⟩
              rcases List.mem_append.mp hp with hp' | hp'
              · exact Or.inr ⟨p, hp', he⟩
              · simp only [List.mem_singleton] at hp'
                subst hp'
                exact Or.inl he
          have hgood' : ∀ p ∈ P ++ [(String.mk implC, String.mk labelC)], goodImpl p.1 := by
            intro p hp
            rcases List.mem_append.mp hp with hp' | hp'
            · exact hgood p hp'
            · simp only [List.mem_singleton] at hp'
              subst hp'
              exact flagMatch_goodImpl hm
          have := ih hseen' hgood' hdup
          rwa [List.append_assoc, List.singleton_append] at this

theorem ppvLoop_dup_iff {flags : List String}
    (heff : ∀ f ∈ flags, effFlagOk f = true)
    {versions : List (String × List PackageVersion)} {seen : List String}
    {P : List (String × String)}
    (hseen : ∀ x, seen.contains x = true ↔ ∃ p ∈ P, x = pairJoin p)
    (hgood : ∀ p ∈ P, goodImpl p.1) (hnodup : P.Nodup) :
    (isDupLabelError (ppvLoop versions seen flags) = true ↔
      ¬ (P ++ labeledPairs flags).Nodup) := by
  induction flags generalizing versions seen P with
  | nil =>
    simp only [ppvLoop, labeledPairs, List.filterMap_nil, List.append_nil]
    simp [isDupLabelError, hnodup]
  | cons flag rest ih =>
    have hf := heff flag (by simp)
    simp only [ppvLoop]
    rcases hm : flagMatch flag.data with - | ⟨implC, - | ⟨labelC, pvsC⟩⟩
    · rw [effFlagOk, hm] at hf
      simp at hf
    · rw [labeledPairs_cons_default hm]
      exact ih (fun f hf' => heff f (by simp [hf'])) hseen hgood hnodup
    · rw [labeledPairs_cons_labeled hm]
      dsimp only
      split
      · rename_i hcontains
        obtain ⟨p', hp'mem, hp'eq⟩ := (hseen _).mp hcontains
        have hq : (String.mk implC, String.mk labelC) = p' :=
          pairJoin_injective (flagMatch_goodImpl hm) (hgood p' hp'mem) hp'eq
        simp only [isDupLabelError, true_iff]
        intro hnd
        have hdisj := List.disjoint_of_nodup_append hnd
        exact hdisj (hq ▸ hp'mem) (List.mem_cons_self _ _)
      · rename_i hcontains
        rw [effFlagOk, hm] at hf
        dsimp only at hf
        obtain ⟨ov, hov⟩ := parseEntriesAux_ok_of_all
          (fun pv hpv => by simpa using (List.all_eq_true.mp hf) pv hpv) []
        rw [hov]
        have hnotmem : (String.mk implC, String.mk labelC) ∉ P := by
          intro hmem
          exact hcontains ((hseen _).mpr ⟨_, hmem, rfl⟩)
        have hseen' : ∀ x,
            ((pairJoin (String.mk implC, String.mk labelC) :: seen).contains x = true ↔
              ∃ p ∈ P ++ [(String.mk implC, String.mk labelC)], x = pairJoin p) := by
          intro x
          rw [List.contains_cons]
          simp only [Bool.or_eq_true, beq_iff_eq, hseen x]
          constructor
          · rintro (he | ⟨p, hp, he⟩)
            · exact ⟨_, by simp, he⟩
            · exact ⟨p, by simp [hp], he⟩
          · rintro ⟨p, hp, he⟩
            rcases List.mem_append.mp hp with hp' | hp'
            · exact Or.inr ⟨p, hp', he⟩
            · simp only [List.mem_singleton] at hp'
              subst hp'
              exact Or.inl he
        have hgood' : ∀ p ∈ P ++ [(String.mk implC, String.mk labelC)], goodImpl p.1 := by
          intro p hp
          rcases List.mem_append.mp hp with hp' | hp'
          · exact hgood p hp'
          · simp only [List.mem_singleton] at hp'
            subst hp'
            exact flagMatch_goodImpl hm
        have hnodup' : (P ++ [(String.mk implC, String.mk labelC)]).Nodup := by
          simp [List.nodup_append, hnodup, hnotmem]
        have := @ih (fun f hf' => heff f (by simp [hf']))
          (mapPush versions (String.mk implC) ⟨String.mk labelC, ov⟩)
          ((String.mk implC ++ "/" ++ String.mk labelC) :: seen)
          (P ++ [(String.mk implC, String.mk labelC)]) hseen' hgood' hnodup'
        rwa [List.append_assoc, List.singleton_append] at this

/-- C5 (counterexample): "DuplicateLabelError exactly when the same
non-default `(implementation, label)` pair appears more than once across
all flags" fails when an earlier flag is malformed: with flags
`["bad-flag", "a/x=p@1", "a/x=p@1"]` the pair `(a, x)` appears twice,
yet the parse throws `ParseError` (for the first flag), not
`DuplicateLabelError`. -/
theorem dup_label_counterexample :
    ¬ (labeledPairs ["bad-flag", "a/x=p@1", "a/x=p@1"]).Nodup ∧
      isDupLabelError (parsePackageVersions ["bad-flag", "a/x=p@1", "a/x=p@1"]) = false ∧
      isParseError (parsePackageVersions ["bad-flag", "a/x=p@1", "a/x=p@1"]) = true := by
  refine ⟨by decide, by decide, by decide⟩

/-- C5 (amended): (a) unconditionally, a thrown `DuplicateLabelError`
means some non-default `(implementation, label)` pair occurs twice
across the flags; (b) for flag lists every flag of which the code's flag
pattern accepts (so that no `ParseError` pre-empts the check),
`DuplicateLabelError` is thrown if and only if some non-default
`(implementation, label)` pair occurs more than once; `default`-form
flags contribute no pair and are exempt. -/
theorem dup_label_iff :
    (∀ flags : List String, isDupLabelError (parsePackageVersions flags) = true →
      ¬ (labeledPairs flags).Nodup) ∧
    (∀ flags : List String, (∀ f ∈ flags, effFlagOk f = true) →
      (isDupLabelError (parsePackageVersions flags) = true ↔
        ¬ (labeledPairs flags).Nodup)) := by
  have hseen : ∀ x, (List.contains ([] : List String) x = true ↔
      ∃ p ∈ ([] : List (String × String)), x = pairJoin p) := by
    intro x
    simp [List.contains]
  constructor
  · intro flags hdup
    have := ppvLoop_dup_sound hseen (by simp) hdup
    simpa using this
  · intro flags heff
    have := @ppvLoop_dup_iff flags heff [] [] [] hseen (by simp) List.nodup_nil
    simpa using this

/-- C5 (witness for the amended theorem). -/
theorem dup_label_iff_witness :
    isDupLabelError (parsePackageVersions ["a/x=p@1", "a/x=q@2"]) = true ↔
      ¬ (labeledPairs ["a/x=p@1", "a/x=q@2"]).Nodup :=
  dup_label_iff.2 ["a/x=p@1", "a/x=q@2"] (by decide)

/-!
### Claim C6 — round-trip of version overrides
-/

theorem objSet_lookup_self (o : List (String × String)) (k v : String) :
    listLookup (objSet o k v) k = some v := by
  induction o with
  | nil => simp [objSet, listLookup]
  | cons hd tl ih =>
    obtain ⟨k', v'⟩ := hd
    simp only [objSet]
    by_cases h : k' = k
    · simp [listLookup, h]
    · simp [listLookup, h, ih]

theorem objSet_lookup_other (o : List (String × String)) (k v k' : String)
    (h : k' ≠ k) : listLookup (objSet o k v) k' = listLookup o k' := by
  induction o with
  | nil =>
    simp only [objSet, listLookup]
    rw [if_neg (fun he => h he.symm)]
  | cons hd tl ih =>
    obtain ⟨k₀, v₀⟩ := hd
    simp only [objSet]
    by_cases h0 : k₀ = k
    · subst h0
      simp only [if_pos rfl, listLookup]
      rw [if_neg (fun he => h he.symm), if_neg (fun he => h he.symm)]
    · rw [if_neg h0]
      simp only [listLookup]
      by_cases h1 : k₀ = k'
      · simp [h1]
      · rw [if_neg h1, if_neg h1, ih]

theorem parseEntriesAux_append (acc : List (String × String)) (l₁ l₂ : List String) :
    parseEntriesAux acc (l₁ ++ l₂) =
      match parseEntriesAux acc l₁ with
      | .error e => .error e
      | .ok m => parseEntriesAux m l₂ := by
  induction l₁ generalizing acc with
  | nil => simp [parseEntriesAux]
  | cons e rest ih =>
    simp only [List.cons_append, parseEntriesAux]
    rcases hm : pvMatch e.data with - | ⟨pkg, version⟩
    · rfl
    · exact ih _

theorem parseEntriesAux_lookup_untouched {entries : List String}
    {acc ov : List (String × String)} {pk : String}
    (h : parseEntriesAux acc entries = .ok ov)
    (hnone : ∀ e ∈ entries, ∀ pk' vr', pvMatch e.data = some (pk', vr') →
      String.mk pk' ≠ pk) :
    listLookup ov pk = listLookup acc pk := by
  induction entries generalizing acc with
  | nil =>
    simp only [parseEntriesAux, Except.ok.injEq] at h
    rw [h]
  | cons e rest ih =>
    simp only [parseEntriesAux] at h
    rcases hm : pvMatch e.data with - | ⟨pkg, version⟩ <;> rw [hm] at h
    · simp at h
    · rw [ih h (fun e' he' => hnone e' (by simp [he']))]
      exact objSet_lookup_other _ _ _ _ (hnone e (by simp) pkg version hm).symm

/-- C6: parsing `impl/label=a@1.0,b@2.0` yields, for implementation
`impl`, exactly one `PackageVersion` with label `label` and
`dependencyOverrides = {a: "1.0", b: "2.0"}`; and in general each
`<pkg>@<version>` entry of a valid flag's version list contributes the
binding `pkg ↦ version` to that flag's `dependencyOverrides` (with a
later entry for the same package overriding an earlier one, as
JavaScript object assignment does). -/
theorem parsePackageVersions_round_trip :
    (parsePackageVersions ["impl/label=a@1.0,b@2.0"] =
      .ok [("impl", [⟨"label", [("a", "1.0"), ("b", "2.0")]⟩])]) ∧
    (∀ (pre post : List String) (e : String) (ov : List (String × String))
        (pk vr : List Char),
      parseEntriesAux [] (pre ++ e :: post) = .ok ov →
      pvMatch e.data = some (pk, vr) →
      (∀ e' ∈ post, ∀ pk' vr', pvMatch e'.data = some (pk', vr') →
        String.mk pk' ≠ String.mk pk) →
      listLookup ov (String.mk pk) = some (String.mk vr)) := by
  constructor
  · decide
  · intro pre post e ov pk vr h hm hpost
    rw [parseEntriesAux_append] at h
    rcases hpre : parseEntriesAux [] pre with er | m <;> rw [hpre] at h
    · simp at h
    · simp only [parseEntriesAux, hm] at h
      rw [parseEntriesAux_lookup_untouched h hpost]
      exact objSet_lookup_self _ _ _

/-- C6 (witness for the general part). -/
theorem parsePackageVersions_round_trip_witness :
    listLookup [("a", "1.0"), ("b", "2.0")] "b" = some "2.0" :=
  parsePackageVersions_round_trip.2 ["a@1.0"] [] "b@2.0"
    [("a", "1.0"), ("b", "2.0")] "b".data "2.0".data (by decide) (by decide)
    (by simp)

/-!
### Expander origin lemmas
-/

theorem oneBenchEmit_mem {opts : Opts} {variants : List String}
    {implVersions : List PackageVersion} {implementation name : String}
    {config : Option ConfigFormat} {l : List BenchmarkSpec} {s : BenchmarkSpec}
    (h : oneBenchEmit opts variants implVersions implementation name config = .ok l)
    (hs : s ∈ l) :
    s.implementation = implementation ∧ s.name = name ∧
      s.version ∈ implVersions ∧ s.url = none := by
  unfold oneBenchEmit at h
  have wildcard : ∀ (l' : List BenchmarkSpec),
      ((if opts.variant = "*" then
        .ok (implVersions.map fun version =>
          { name, implementation, version, variant := "", config := [] })
      else .ok []) : Except JsError (List BenchmarkSpec)) = .ok l' → s ∈ l' →
      s.implementation = implementation ∧ s.name = name ∧
        s.version ∈ implVersions ∧ s.url = none := by
    intro l' h' hs'
    split at h'
    · simp only [Except.ok.injEq] at h'
      subst h'
      obtain ⟨version, hv, hspec⟩ := List.mem_map.mp hs'
      subst hspec
      exact ⟨rfl, rfl, hv, rfl⟩
    · simp only [Except.ok.injEq] at h'
      subst h'
      simp at hs'
  rcases config with - | c
  · exact wildcard l h hs
  · dsimp only at h
    rcases hv : c.variants with - | vs <;> rw [hv] at h
    · exact wildcard l h hs
    · dsimp only at h
      split at h
      · injection h with h
        subst h
        obtain ⟨variant, hvmem, hsv⟩ := List.mem_flatMap.mp hs
        rcases hn : variant.name with - | vn <;> rw [hn] at hsv <;>
          dsimp only at hsv
        · simp at hsv
        · split at hsv
          · obtain ⟨version, hver, hspec⟩ := List.mem_map.mp hsv
            subst hspec
            exact ⟨rfl, rfl, hver, rfl⟩
          · simp at hsv
      · exact wildcard l h hs

theorem oneBench_mem {fs : SpecsFs} {repoRoot : FsPath} {opts : Opts}
    {variants : List String} {implVersions : List PackageVersion}
    {implementation name : String} {l : List BenchmarkSpec} {s : BenchmarkSpec}
    (h : oneBench fs repoRoot opts variants implVersions implementation name = .ok l)
    (hs : s ∈ l) :
    s.implementation = implementation ∧ s.name = name ∧
      s.version ∈ implVersions ∧ s.url = none := by
  unfold oneBench at h
  split at h
  · simp only [Except.ok.injEq] at h
    subst h
    simp at hs
  · split at h
    · simp at h
    · exact oneBenchEmit_mem h hs
    · exact oneBenchEmit_mem h hs

theorem benchLoop_mem {fs : SpecsFs} {repoRoot : FsPath} {opts : Opts}
    {variants : List String} {implVersions : List PackageVersion}
    {implementation : String} {names : List String} {l : List BenchmarkSpec}
    {s : BenchmarkSpec}
    (h : benchLoop fs repoRoot opts variants implVersions implementation names = .ok l)
    (hs : s ∈ l) :
    ∃ bname ∈ names, ∃ lb,
      oneBench fs repoRoot opts variants implVersions implementation bname = .ok lb ∧
        s ∈ lb := by
  induction names generalizing l with
  | nil =>
    simp only [benchLoop, Except.ok.injEq] at h
    subst h
    simp at hs
  | cons bname rest ih =>
    simp only [benchLoop] at h
    rw [except_bind_ok] at h
    obtain ⟨here, hhere, h⟩ := h
    rw [except_bind_ok] at h
    obtain ⟨more, hmore, h⟩ := h
    simp only [Except.ok.injEq] at h
    subst h
    rcases List.mem_append.mp hs with hmem | hmem
    · exact ⟨bname, by simp, here, hhere, hmem⟩
    · obtain ⟨b', hb', lb, hlb, hmem'⟩ := ih hmore hmem
      exact ⟨b', by simp [hb'], lb, hlb, hmem'⟩

theorem implLoop_mem {fs : SpecsFs} {repoRoot : FsPath} {opts : Opts}
    {variants : List String} {versions : List (String × List PackageVersion)}
    {impls : List String} {l : List BenchmarkSpec} {s : BenchmarkSpec}
    (h : implLoop fs repoRoot opts variants versions impls = .ok l) (hs : s ∈ l) :
    ∃ impl ∈ impls, ∃ names,
      resolveBenchNames fs (repoRoot ++ ["benchmarks", impl]) opts = .ok names ∧
      ∃ bname ∈ names, ∃ lb,
        oneBench fs repoRoot opts variants
          ((listLookup versions impl).getD [defaultVersion]) impl bname = .ok lb ∧
          s ∈ lb := by
  induction impls generalizing l with
  | nil =>
    simp only [implLoop, Except.ok.injEq] at h
    subst h
    simp at hs
  | cons impl rest ih =>
    simp only [implLoop] at h
    rw [except_bind_ok] at h
    obtain ⟨names, hnames, h⟩ := h
    rw [except_bind_ok] at h
    obtain ⟨here, hhere, h⟩ := h
    rw [except_bind_ok] at h
    obtain ⟨more, hmore, h⟩ := h
    simp only [Except.ok.injEq] at h
    subst h
    rcases List.mem_append.mp hs with hmem | hmem
    · obtain ⟨bname, hb, lb, hlb, hmem'⟩ := benchLoop_mem hhere hmem
      exact ⟨impl, by simp, names, hnames, bname, hb, lb, hlb, hmem'⟩
    · obtain ⟨impl', hi', rest'⟩ := ih hmore hmem
      exact ⟨impl', by simp [hi'], rest'⟩

/-- Every spec a successful `specsFromOpts` emits originates from one
benchmark-loop iteration; in particular its `url` property is absent and
its version comes from that implementation's version list. -/
theorem specsFromOpts_mem {fs : SpecsFs} {repoRoot : FsPath} {opts : Opts}
    {l : List BenchmarkSpec} {s : BenchmarkSpec}
    (h : specsFromOpts fs repoRoot opts = .ok l) (hs : s ∈ l) :
    s.url = none ∧
      ∃ vm, parsePackageVersions opts.packageVersion = .ok vm ∧
        s.version ∈ (listLookup vm s.implementation).getD [defaultVersion] := by
  unfold specsFromOpts at h
  rw [except_bind_ok] at h
  obtain ⟨vm, hvm, h⟩ := h
  rw [except_bind_ok] at h
  obtain ⟨impls, himpls, h⟩ := h
  rw [except_bind_ok] at h
  obtain ⟨raw, hraw, h⟩ := h
  simp only [Except.ok.injEq] at h
  subst h
  have hsraw : s ∈ raw := (List.perm_insertionSort specLe raw).mem_iff.mp hs
  obtain ⟨impl, -, names, -, bname, -, lb, hlb, hmem⟩ := implLoop_mem hraw hsraw
  obtain ⟨himpl, -, hver, hurl⟩ := oneBench_mem hlb hmem
  subst himpl
  exact ⟨hurl, vm, hvm, hver⟩

/-!
### Claim C7 — the implicit default version is per-implementation
-/

/-- C7: during spec expansion, every emitted spec's version comes from
the parsed override list of its own implementation when one exists, and
is the implicit `{label: "default", dependencyOverrides: {}}` otherwise —
the implicit default is injected per implementation (an implementation
with no parsed overrides gets it even when other implementations have
override flags), and an implementation with parsed overrides only ever
receives versions from its parsed list. -/
theorem implicit_default_per_implementation (fs : SpecsFs) (repoRoot : FsPath)
    (opts : Opts) (l : List BenchmarkSpec)
    (vm : List (String × List PackageVersion))
    (h : specsFromOpts fs repoRoot opts = .ok l)
    (hvm : parsePackageVersions opts.packageVersion = .ok vm) :
    ∀ s ∈ l,
      match listLookup vm s.implementation with
      | some vs => s.version ∈ vs
      | none => s.version = defaultVersion := by
  intro s hs
  obtain ⟨-, vm', hvm', hver⟩ := specsFromOpts_mem h hs
  rw [hvm] at hvm'
  injection hvm' with he
  subst he
  rcases hl : listLookup vm s.implementation with - | vs
  · rw [hl] at hver
    simpa using hver
  · rw [hl] at hver
    simpa using hver

/-- C7 (witness): implementation `i` has an override flag; its emitted
spec carries the parsed version. -/
theorem implicit_default_per_implementation_witness :
    (match listLookup [("i", [(⟨"x", [("p", "1")]⟩ : PackageVersion)])] "i" with
     | some vs => (⟨"x", [("p", "1")]⟩ : PackageVersion) ∈ vs
     | none => (⟨"x", [("p", "1")]⟩ : PackageVersion) = defaultVersion) :=
  implicit_default_per_implementation
    ⟨fun _ => .ok [],
     fun p => p = ["benchmarks", "i", "a"] ∨ p = ["benchmarks", "j", "a"],
     fun _ => .error .enoent⟩
    [] ⟨"a", "i,j", "*", ["i/x=p@1"]⟩
    [{ name := "a", implementation := "i", variant := "",
       version := ⟨"x", [("p", "1")]⟩, config := [], url := none },
     { name := "a", implementation := "j", variant := "",
       version := defaultVersion, config := [], url := none }]
    [("i", [⟨"x", [("p", "1")]⟩])] (by decide) (by decide)
    { name := "a", implementation := "i", variant := "",
      version := ⟨"x", [("p", "1")]⟩, config := [], url := none } (by decide)

/-!
### Claim C8 — variant selection
-/

/-- C8: (a) for a benchmark whose config declares one or more variants,
requesting only variant names absent from the declared ones (and not the
wildcard) yields zero specs for that benchmark, with no error; (b) for a
benchmark with no declared variants (absent config file, absent or empty
`variants`), exactly one spec per version — with empty variant name and
empty config — is emitted if and only if the raw variant selection was
the wildcard string `"*"` (stated for options naming that single
implementation and benchmark explicitly). -/
theorem variant_selection (fs : SpecsFs) (repoRoot : FsPath) (opts : Opts)
    (l : List BenchmarkSpec) (i b : String)
    (h : specsFromOpts fs repoRoot opts = .ok l) :
    (∀ cf vs,
      fs.readConfig (repoRoot ++ ["benchmarks", i, b, "benchmarks.json"]) = .ok cf →
      cf.variants = some vs → vs ≠ [] →
      (requestedVariants opts).contains "*" = false →
      (∀ v ∈ vs, ∀ n, v.name = some n → (requestedVariants opts).contains n = false) →
      ∀ s ∈ l, ¬(s.name = b ∧ s.implementation = i)) ∧
    (∀ vm, parsePackageVersions opts.packageVersion = .ok vm →
      opts.implementation = i → i ≠ "*" → splitComma i = [i] →
      opts.name = b → b ≠ "*" → splitComma b = [b] →
      fs.pathExists (repoRoot ++ ["benchmarks", i, b]) = true →
      (fs.readConfig (repoRoot ++ ["benchmarks", i, b, "benchmarks.json"]) =
          .error .enoent ∨
        ∃ cf, fs.readConfig (repoRoot ++ ["benchmarks", i, b, "benchmarks.json"]) =
            .ok cf ∧ (cf.variants = none ∨ cf.variants = some [])) →
      l.countP (fun s => decide (s.name = b ∧ s.implementation = i ∧
          s.variant = "" ∧ s.config = [])) =
        if opts.variant = "*" then ((listLookup vm i).getD [defaultVersion]).length
        else 0) := by
  constructor
  · intro cf vs hcf hvs hvs0 hstar hnomatch s hs ⟨hname, himpl⟩
    unfold specsFromOpts at h
    rw [except_bind_ok] at h
    obtain ⟨vm', -, h⟩ := h
    rw [except_bind_ok] at h
    obtain ⟨impls, -, h⟩ := h
    rw [except_bind_ok] at h
    obtain ⟨raw, hraw, h⟩ := h
    simp only [Except.ok.injEq] at h
    subst h
    have hsraw : s ∈ raw := (List.perm_insertionSort specLe raw).mem_iff.mp hs
    obtain ⟨impl, -, names, -, bname, -, lb, hlb, hmem⟩ := implLoop_mem hraw hsraw
    obtain ⟨himpl', hname', -, -⟩ := oneBench_mem hlb hmem
    rw [himpl] at himpl'
    rw [hname] at hname'
    subst himpl'
    subst hname'
    unfold oneBench at hlb
    split at hlb
    · simp only [Except.ok.injEq] at hlb
      subst hlb
      simp at hmem
    · rw [hcf] at hlb
      unfold oneBenchEmit at hlb
      dsimp only at hlb
      rw [hvs] at hlb
      dsimp only at hlb
      rw [if_pos (by simpa using fun hlen => hvs0 (List.eq_nil_of_length_eq_zero hlen))]
        at hlb
      simp only [Except.ok.injEq] at hlb
      subst hlb
      obtain ⟨variant, hvmem, hsv⟩ := List.mem_flatMap.mp hmem
      rcases hn : variant.name with - | vn <;> rw [hn] at hsv <;> dsimp only at hsv
      · simp at hsv
      · split at hsv
        · rename_i hcond
          rcases hcond.2 with hc | hc
          · rw [hstar] at hc
            simp at hc
          · rw [hnomatch variant hvmem vn hn] at hc
            simp at hc
        · simp at hsv
  · intro vm hvm hio histar hisplit hno hbstar hbsplit hexists hconfig
    unfold specsFromOpts at h
    rw [except_bind_ok] at h
    obtain ⟨vm', hvm', h⟩ := h
    rw [hvm] at hvm'
    injection hvm' with hvm'
    subst hvm'
    rw [except_bind_ok] at h
    obtain ⟨impls, himpls, h⟩ := h
    rw [except_bind_ok] at h
    obtain ⟨raw, hraw, h⟩ := h
    simp only [Except.ok.injEq] at h
    subst h
    unfold resolveImpls at himpls
    rw [if_neg (by rw [hio]; simpa using histar), hio, hisplit] at himpls
    split at himpls
    · simp at himpls
    · simp only [Except.ok.injEq] at himpls
      subst himpls
      simp only [implLoop] at hraw
      rw [except_bind_ok] at hraw
      obtain ⟨names, hnames, hraw⟩ := hraw
      unfold resolveBenchNames at hnames
      rw [if_neg (by rw [hno]; simpa using hbstar), hno, hbsplit] at hnames
      split at hnames
      · simp at hnames
      · simp only [Except.ok.injEq] at hnames
        subst hnames
        rw [except_bind_ok] at hraw
        obtain ⟨here, hhere, hraw⟩ := hraw
        rw [except_bind_ok] at hraw
        obtain ⟨more, hmore, hraw⟩ := hraw
        simp only [implLoop, Except.ok.injEq] at hmore
        subst hmore
        simp only [Except.ok.injEq] at hraw
        subst hraw
        simp only [benchLoop] at hhere
        rw [except_bind_ok] at hhere
        obtain ⟨here1, hone, hhere⟩ := hhere
        rw [except_bind_ok] at hhere
        obtain ⟨more1, hmore1, hhere⟩ := hhere
        simp only [benchLoop, Except.ok.injEq] at hmore1
        subst hmore1
        simp only [Except.ok.injEq] at hhere
        subst hhere
        unfold oneBench at hone
        rw [if_neg (by simp [hexists])] at hone
        have hemit : oneBenchEmit opts (requestedVariants opts)
            ((listLookup vm i).getD [defaultVersion]) i b none = .ok here1 ∨
            ∃ cf, (cf.variants = none ∨ cf.variants = some []) ∧
              oneBenchEmit opts (requestedVariants opts)
                ((listLookup vm i).getD [defaultVersion]) i b (some cf) = .ok here1 := by
          rcases hconfig with hcfg | ⟨cf, hcfg, hv⟩
          · rw [hcfg] at hone
            exact Or.inl hone
          · rw [hcfg] at hone
            exact Or.inr ⟨cf, hv, hone⟩
        have hwild : here1 =
            if opts.variant = "*" then
              ((listLookup vm i).getD [defaultVersion]).map fun version =>
                { name := b, implementation := i, version, variant := "", config := [] }
            else [] := by
          rcases hemit with hemit | ⟨cf, hv, hemit⟩
          · unfold oneBenchEmit at hemit
            dsimp only at hemit
            split at hemit <;> simp_all
          · unfold oneBenchEmit at hemit
            dsimp only at hemit
            rcases hv with hv | hv <;> rw [hv] at hemit <;> dsimp only at hemit
            · split at hemit <;> simp_all
            · rw [if_neg (by simp)] at hemit
              split at hemit <;> simp_all
        subst hwild
        rw [List.Perm.countP_eq _ (List.perm_insertionSort specLe _)]
        by_cases hvstar : opts.variant = "*"
        · rw [if_pos hvstar, if_pos hvstar]
          simp only [List.append_nil]
          rw [List.countP_eq_length.mpr, List.length_map]
          intro a ha
          obtain ⟨version, -, hspec⟩ := List.mem_map.mp ha
          subst hspec
          simp
        · rw [if_neg hvstar, if_neg hvstar]
          simp

/-- C8 (witness): benchmark `a` of implementation `i` has no config file;
with wildcard variant selection exactly one spec (per the single default
version) is emitted, with empty variant and config. -/
theorem variant_selection_witness :
    ([{ name := "a", implementation := "i", variant := "", version := defaultVersion,
        config := [], url := none }] : List BenchmarkSpec).countP
      (fun s => decide (s.name = "a" ∧ s.implementation = "i" ∧
        s.variant = "" ∧ s.config = [])) =
      if optsSingle.variant = "*" then
        ((listLookup ([] : List (String × List PackageVersion)) "i").getD
          [defaultVersion]).length
      else 0 :=
  (variant_selection fsSingle [] optsSingle
    [{ name := "a", implementation := "i", variant := "", version := defaultVersion,
       config := [], url := none }] "i" "a" (by decide)).2 []
    (by decide) rfl (by decide) (by decide) rfl (by decide) (by decide) (by decide)
    (Or.inl (by decide))

/-!
### Claim C1 — expander output consumed by the grouper
-/

/-- C1 (counterexample): `makeServerPlans` reads `spec.url.kind` (and
`spec.url.version`, `spec.url.implementation`), but `specsFromOpts` does
not set a `url` property on the specs it emits — so running
`makeServerPlans` on a (non-empty) `specsFromOpts` output fails
immediately with a `TypeError` from accessing a property of `undefined`,
refuting "never fails by accessing a field the expander did not
produce". -/
theorem specs_feed_plans_counterexample :
    specsFromOpts fsSingle [] optsSingle =
      .ok [{ name := "a", implementation := "i", variant := "",
             version := defaultVersion, config := [], url := none }] ∧
      makeServerPlans planFsShared [] ["root"]
        [{ name := "a", implementation := "i", variant := "",
           version := defaultVersion, config := [], url := none }] =
        .error .typeError := by
  decide

/-- C1 (amended): the fields the grouper reads (`url.kind`,
`url.version`, `url.implementation`) are NOT fields the expander sets
(it sets `implementation` and `version` at the top level and no `url`),
so `makeServerPlans` applied to any non-empty `specsFromOpts` output
fails with a `TypeError` on the very first spec; only an empty expander
output is consumable. -/
theorem specs_feed_plans_amended (sfs : SpecsFs) (repoRoot : FsPath) (opts : Opts)
    (s : BenchmarkSpec) (rest : List BenchmarkSpec) (pfs : PlanFs)
    (benchmarkRoot npmInstallRoot : FsPath)
    (h : specsFromOpts sfs repoRoot opts = .ok (s :: rest)) :
    makeServerPlans pfs benchmarkRoot npmInstallRoot (s :: rest) =
      .error .typeError := by
  obtain ⟨hurl, -⟩ := specsFromOpts_mem h (List.mem_cons_self s rest)
  unfold makeServerPlans
  have hloop : groupLoop pfs benchmarkRoot ⟨[], [], []⟩ (s :: rest) =
      .error .typeError := by
    simp only [groupLoop]
    have hstep : groupStep pfs benchmarkRoot ⟨[], [], []⟩ s = .error .typeError := by
      unfold groupStep
      rw [hurl]
    rw [hstep]
    rfl
  rw [hloop]
  rfl

/-- C1 (witness for the amended theorem). -/
theorem specs_feed_plans_amended_witness :
    makeServerPlans planFsShared ["b"] ["n"]
      [{ name := "a", implementation := "i", variant := "",
         version := defaultVersion, config := [], url := none }] =
      .error .typeError :=
  specs_feed_plans_amended fsSingle [] optsSingle _ [] planFsShared ["b"] ["n"]
    (by decide)

/-!
### Claim C3 — grouping by install key and distinct install dirs
-/

theorem jsonEscChar_ne_nil (c : Char) : jsonEscChar c ≠ [] := by
  unfold jsonEscChar
  split_ifs <;> simp

theorem escClass (c : Char) :
    (c ≠ '"' ∧ c ≠ '\\' ∧ jsonEscChar c = [c]) ∨
    (c = '"' ∧ jsonEscChar c = ['\\', '"']) ∨
    (c = '\\' ∧ jsonEscChar c = ['\\', '\\']) := by
  unfold jsonEscChar
  split_ifs with h1 h2
  · exact Or.inr (Or.inl ⟨h1, rfl⟩)
  · exact Or.inr (Or.inr ⟨h2, rfl⟩)
  · exact Or.inl ⟨h1, h2, rfl⟩

theorem jsonEsc_injective {l₁ l₂ : List Char}
    (h : l₁.flatMap jsonEscChar = l₂.flatMap jsonEscChar) : l₁ = l₂ := by
  induction l₁ generalizing l₂ with
  | nil =>
    cases l₂ with
    | nil => rfl
    | cons d ds =>
      simp only [List.flatMap_nil, List.flatMap_cons] at h
      have := jsonEscChar_ne_nil d
      rcases he : jsonEscChar d with - | ⟨x, xs⟩
      · exact absurd he this
      · rw [he] at h
        simp at h
  | cons c cs ih =>
    cases l₂ with
    | nil =>
      simp only [List.flatMap_nil, List.flatMap_cons] at h
      have := jsonEscChar_ne_nil c
      rcases he : jsonEscChar c with - | ⟨x, xs⟩
      · exact absurd he this
      · rw [he] at h
        simp at h
    | cons d ds =>
      simp only [List.flatMap_cons] at h
      rcases escClass c with ⟨hc1, hc2, hec⟩ | ⟨hceq, hec⟩ | ⟨hceq, hec⟩ <;>
        rcases escClass d with ⟨hd1, hd2, hed⟩ | ⟨hdeq, hed⟩ | ⟨hdeq, hed⟩ <;>
        rw [hec, hed] at h <;>
        simp only [List.cons_append, List.nil_append, List.cons.injEq] at h
      · rw [h.1, ih h.2]
      · exact absurd h.1 hc2
      · exact absurd h.1 hc2
      · exact absurd h.1.symm hd2
      · rw [hceq, hdeq, ih h.2.2]
      · exact absurd h.2.1 (by decide)
      · exact absurd h.1.symm hd2
      · exact absurd h.2.1 (by decide)
      · rw [hceq, hdeq, ih h.2.2]

theorem jsonQuote_injective {a b : String} (h : jsonQuote a = jsonQuote b) : a = b := by
  unfold jsonQuote at h
  injection h with h1 h2
  exact String.ext (jsonEsc_injective (List.append_cancel_right h2))

theorem hashStrings_pair_injective {a b c : String}
    (h : hashStrings [a, b] = hashStrings [a, c]) : b = c := by
  unfold hashStrings at h
  have hd := congrArg String.data h
  simp only [List.flatMap_cons, List.flatMap_nil, List.append_nil] at hd
  exact jsonQuote_injective (List.append_cancel_left hd)

theorem emitPlans_cons_ok {benchmarkRoot npmInstallRoot pd : FsPath}
    {impl label : String} {specs' : List BenchmarkSpec} {dep : DepMap}
    {keyDeps : List (InstallKey × DepMap)}
    {rest : List (InstallKey × List BenchmarkSpec)} {plans : List ServerPlan}
    (hlookup : listLookup keyDeps (pd, impl, label) = some dep)
    (hrest : emitPlans benchmarkRoot npmInstallRoot keyDeps rest = .ok plans) :
    emitPlans benchmarkRoot npmInstallRoot keyDeps (((pd, impl, label), specs') :: rest) =
      .ok ({ specs := specs',
             npmInstalls := [{
               installDir :=
                 npmInstallRoot ++ [hashStrings [String.intercalate "/" pd, label]],
               packageJson := { priv := true, dependencies := dep } }],
             mountPoints := [
               { urlPath := "/" ++ String.intercalate "/" (pathRelative benchmarkRoot pd)
                   ++ "/node_modules",
                 diskPath := (npmInstallRoot ++
                   [hashStrings [String.intercalate "/" pd, label]]) ++ ["node_modules"] },
               { urlPath := "/", diskPath := benchmarkRoot }] } :: plans) := by
  simp only [emitPlans, hlookup, hrest]
  rfl

theorem emitPlans_nil (benchmarkRoot npmInstallRoot : FsPath)
    (keyDeps : List (InstallKey × DepMap)) :
    emitPlans benchmarkRoot npmInstallRoot keyDeps [] = .ok [] := rfl

/-- C3: two non-default specs resolving to the same manifest directory
with the same implementation and version label share one install key, so
`makeServerPlans` emits exactly one `NpmInstall` and one plan containing
both specs; with different version labels it emits two separate plans
whose `installDir`s (content-addressed from the manifest directory and
label) are distinct. -/
theorem makeServerPlans_grouping (fs : PlanFs) (benchmarkRoot npmInstallRoot : FsPath)
    (s1 s2 : BenchmarkSpec) (i1 i2 : String) (v1 v2 : PackageVersion)
    (k1 k2 : FileKind) (pj1 pj2 d : FsPath)
    (hu1 : s1.url = some (.local i1 v1)) (hu2 : s2.url = some (.local i2 v2))
    (hnd1 : v1.label ≠ "default") (hnd2 : v2.label ≠ "default")
    (hk1 : fs.fileKind (benchmarkRoot ++ [i1, s1.name]) = some k1)
    (hk2 : fs.fileKind (benchmarkRoot ++ [i2, s2.name]) = some k2)
    (hp1 : findPackageJsonPath fs
      (if k1 = .file then (benchmarkRoot ++ [i1, s1.name]).dropLast
       else benchmarkRoot ++ [i1, s1.name]) = some pj1)
    (hp2 : findPackageJsonPath fs
      (if k2 = .file then (benchmarkRoot ++ [i2, s2.name]).dropLast
       else benchmarkRoot ++ [i2, s2.name]) = some pj2)
    (hdir1 : pj1.dropLast = d) (hdir2 : pj2.dropLast = d) :
    (i1 = i2 → v1.label = v2.label →
      ∃ plan, makeServerPlans fs benchmarkRoot npmInstallRoot [s1, s2] = .ok [plan] ∧
        plan.specs = [s1, s2] ∧ plan.npmInstalls.length = 1) ∧
    (v1.label ≠ v2.label →
      ∃ p1 p2 inst1 inst2,
        makeServerPlans fs benchmarkRoot npmInstallRoot [s1, s2] = .ok [p1, p2] ∧
        p1.specs = [s1] ∧ p2.specs = [s2] ∧
        p1.npmInstalls = [inst1] ∧ p2.npmInstalls = [inst2] ∧
        inst1.installDir ≠ inst2.installDir) := by
  have hstep1 : groupStep fs benchmarkRoot ⟨[], [], []⟩ s1 =
      .ok ⟨[((d, i1, v1.label), [s1])],
           [((d, i1, v1.label),
             spreadMerge (fs.readPackageJson pj1).dependencies v1.dependencyOverrides)],
           []⟩ := by
    unfold groupStep
    rw [hu1]
    dsimp only
    rw [if_neg hnd1, hk1]
    dsimp only
    rw [hp1]
    dsimp only
    rw [hdir1]
    rfl
  constructor
  · intro hieq hleq
    subst hieq
    have hstep2 : groupStep fs benchmarkRoot
        ⟨[((d, i1, v1.label), [s1])],
         [((d, i1, v1.label),
           spreadMerge (fs.readPackageJson pj1).dependencies v1.dependencyOverrides)],
         []⟩ s2 =
        .ok ⟨[((d, i1, v1.label), [s1, s2])],
             [((d, i1, v1.label),
               spreadMerge (fs.readPackageJson pj2).dependencies v2.dependencyOverrides)],
             []⟩ := by
      unfold groupStep
      rw [hu2]
      dsimp only
      rw [if_neg hnd2, hk2]
      dsimp only
      rw [hp2]
      dsimp only
      rw [hdir2, ← hleq]
      simp [keyPush, keySet]
    have hloop : groupLoop fs benchmarkRoot ⟨[], [], []⟩ [s1, s2] =
        .ok ⟨[((d, i1, v1.label), [s1, s2])],
             [((d, i1, v1.label),
               spreadMerge (fs.readPackageJson pj2).dependencies v2.dependencyOverrides)],
             []⟩ := by
      simp only [groupLoop, hstep1, hstep2, Except.bind, Bind.bind]
    have hms : makeServerPlans fs benchmarkRoot npmInstallRoot [s1, s2] =
        .ok [{ specs := [s1, s2],
               npmInstalls := [{
                 installDir := npmInstallRoot ++
                   [hashStrings [String.intercalate "/" d, v1.label]],
                 packageJson := {
                   priv := true,
                   dependencies := spreadMerge (fs.readPackageJson pj2).dependencies
                     v2.dependencyOverrides } }],
               mountPoints := [
                 { urlPath := "/" ++ String.intercalate "/" (pathRelative benchmarkRoot d)
                     ++ "/node_modules",
                   diskPath := (npmInstallRoot ++
                     [hashStrings [String.intercalate "/" d, v1.label]]) ++
                     ["node_modules"] },
                 { urlPath := "/", diskPath := benchmarkRoot }] }] := by
      have hlk : listLookup
          [((d, i1, v1.label),
            spreadMerge (fs.readPackageJson pj2).dependencies v2.dependencyOverrides)]
          (d, i1, v1.label) =
          some (spreadMerge (fs.readPackageJson pj2).dependencies
            v2.dependencyOverrides) := by
        simp [listLookup]
      unfold makeServerPlans
      rw [hloop]
      simp only [Except.bind, Bind.bind]
      rw [emitPlans_cons_ok hlk (emitPlans_nil _ _ _)]
      simp [Except.bind, Bind.bind]
    exact ⟨_, hms, rfl, rfl⟩
  · intro hlneq
    have hkeyne : ((d, i1, v1.label) : InstallKey) ≠ (d, i2, v2.label) := by
      intro he
      exact hlneq (congrArg (fun k : InstallKey => k.2.2) he)
    have hstep2 : groupStep fs benchmarkRoot
        ⟨[((d, i1, v1.label), [s1])],
         [((d, i1, v1.label),
           spreadMerge (fs.readPackageJson pj1).dependencies v1.dependencyOverrides)],
         []⟩ s2 =
        .ok ⟨[((d, i1, v1.label), [s1]), ((d, i2, v2.label), [s2])],
             [((d, i1, v1.label),
               spreadMerge (fs.readPackageJson pj1).dependencies v1.dependencyOverrides),
              ((d, i2, v2.label),
               spreadMerge (fs.readPackageJson pj2).dependencies v2.dependencyOverrides)],
             []⟩ := by
      unfold groupStep
      rw [hu2]
      dsimp only
      rw [if_neg hnd2, hk2]
      dsimp only
      rw [hp2]
      dsimp only
      rw [hdir2]
      simp [keyPush, keySet, hkeyne]
    have hloop : groupLoop fs benchmarkRoot ⟨[], [], []⟩ [s1, s2] =
        .ok ⟨[((d, i1, v1.label), [s1]), ((d, i2, v2.label), [s2])],
             [((d, i1, v1.label),
               spreadMerge (fs.readPackageJson pj1).dependencies v1.dependencyOverrides),
              ((d, i2, v2.label),
               spreadMerge (fs.readPackageJson pj2).dependencies v2.dependencyOverrides)],
             []⟩ := by
      simp only [groupLoop, hstep1, hstep2, Except.bind, Bind.bind]
    have hinstne :
        (npmInstallRoot ++ [hashStrings [String.intercalate "/" d, v1.label]]) ≠
          (npmInstallRoot ++ [hashStrings [String.intercalate "/" d, v2.label]]) := by
      intro he
      have := List.append_cancel_left he
      simp only [List.cons.injEq, and_true] at this
      exact hlneq (hashStrings_pair_injective this)
    have hms : makeServerPlans fs benchmarkRoot npmInstallRoot [s1, s2] =
        .ok [{ specs := [s1],
               npmInstalls := [{
                 installDir := npmInstallRoot ++
                   [hashStrings [String.intercalate "/" d, v1.label]],
                 packageJson := {
                   priv := true,
                   dependencies := spreadMerge (fs.readPackageJson pj1).dependencies
                     v1.dependencyOverrides } }],
               mountPoints := [
                 { urlPath := "/" ++ String.intercalate "/" (pathRelative benchmarkRoot d)
                     ++ "/node_modules",
                   diskPath := (npmInstallRoot ++
                     [hashStrings [String.intercalate "/" d, v1.label]]) ++
                     ["node_modules"] },
                 { urlPath := "/", diskPath := benchmarkRoot }] },
             { specs := [s2],
               npmInstalls := [{
                 installDir := npmInstallRoot ++
                   [hashStrings [String.intercalate "/" d, v2.label]],
                 packageJson := {
                   priv := true,
                   dependencies := spreadMerge (fs.readPackageJson pj2).dependencies
                     v2.dependencyOverrides } }],
               mountPoints := [
                 { urlPath := "/" ++ String.intercalate "/" (pathRelative benchmarkRoot d)
                     ++ "/node_modules",
                   diskPath := (npmInstallRoot ++
                     [hashStrings [String.intercalate "/" d, v2.label]]) ++
                     ["node_modules"] },
                 { urlPath := "/", diskPath := benchmarkRoot }] }] := by
      have hlk1 : listLookup
          [((d, i1, v1.label),
            spreadMerge (fs.readPackageJson pj1).dependencies v1.dependencyOverrides),
           ((d, i2, v2.label),
            spreadMerge (fs.readPackageJson pj2).dependencies v2.dependencyOverrides)]
          (d, i1, v1.label) =
          some (spreadMerge (fs.readPackageJson pj1).dependencies
            v1.dependencyOverrides) := by
        simp [listLookup]
      have hlk2 : listLookup
          [((d, i1, v1.label),
            spreadMerge (fs.readPackageJson pj1).dependencies v1.dependencyOverrides),
           ((d, i2, v2.label),
            spreadMerge (fs.readPackageJson pj2).dependencies v2.dependencyOverrides)]
          (d, i2, v2.label) =
          some (spreadMerge (fs.readPackageJson pj2).dependencies
            v2.dependencyOverrides) := by
        simp [listLookup, hkeyne]
      unfold makeServerPlans
      rw [hloop]
      simp only [Except.bind, Bind.bind]
      rw [emitPlans_cons_ok hlk1 (emitPlans_cons_ok hlk2 (emitPlans_nil _ _ _))]
      simp [Except.bind, Bind.bind]
    exact ⟨_, _, _, _, hms, rfl, rfl, rfl, rfl, hinstne⟩

/-- C3 (witness): benchmarks `n1` and `n2` under implementation `i`
share the manifest directory `i`. -/
theorem makeServerPlans_grouping_witness :
    (("i" : String) = "i" →
      (⟨"v1", []⟩ : PackageVersion).label = (⟨"v1", []⟩ : PackageVersion).label →
      ∃ plan, makeServerPlans planFsShared [] ["root"]
          [gSpecN1 "v1", gSpecN2 "v1"] = .ok [plan] ∧
        plan.specs = [gSpecN1 "v1", gSpecN2 "v1"] ∧ plan.npmInstalls.length = 1) ∧
    ((⟨"v1", []⟩ : PackageVersion).label ≠ (⟨"v1", []⟩ : PackageVersion).label →
      ∃ p1 p2 inst1 inst2,
        makeServerPlans planFsShared [] ["root"] [gSpecN1 "v1", gSpecN2 "v1"] =
          .ok [p1, p2] ∧
        p1.specs = [gSpecN1 "v1"] ∧ p2.specs = [gSpecN2 "v1"] ∧
        p1.npmInstalls = [inst1] ∧ p2.npmInstalls = [inst2] ∧
        inst1.installDir ≠ inst2.installDir) :=
  makeServerPlans_grouping planFsShared [] ["root"] (gSpecN1 "v1") (gSpecN2 "v1")
    "i" "i" ⟨"v1", []⟩ ⟨"v1", []⟩ .dir .dir ["i", "package.json"] ["i", "package.json"]
    ["i"] rfl rfl (by decide) (by decide) (by decide) (by decide) (by decide)
    (by decide) rfl rfl
